import Mathlib

set_option maxRecDepth 4000

/-!
Shallow embedding of the spendlot-backend text-extraction and categorization
pipeline (src/app/tasks/ocr_tasks.py, src/app/services/twilio_service.py,
src/app/services/categorization_service.py), together with proofs checking the
specification's claims about it.

Strings are modelled over their character lists; Python's `re` module is
modelled by a small backtracking engine (`matchM`) limited to the constructs the
source patterns use (character classes, bounded/unbounded greedy and lazy
repetition over a class, alternation, a single capture group, the `$` anchor).
`decimal.Decimal` is modelled by `parseDecimal` (`none` = constructor raises),
`datetime.strptime` by `strptime` for the concrete formats the source passes.
-/

/-! ### Python character/string primitives (ASCII fragment) -/

def pyIsSpace (c : Char) : Bool :=
  c == ' ' || c == '\t' || c == '\n' || c == '\r' || c == '\x0b' || c == '\x0c'

def isUpperAscii (c : Char) : Bool := 'A' ≤ c && c ≤ 'Z'

def isLowerAscii (c : Char) : Bool := 'a' ≤ c && c ≤ 'z'

def isAlphaAscii (c : Char) : Bool := isUpperAscii c || isLowerAscii c

/-- The digits 1-9 (the regex class `[1-9]`), as an equality chain. -/
def isDig19 (c : Char) : Bool :=
  c == '1' || c == '2' || c == '3' || c == '4' || c == '5' ||
  c == '6' || c == '7' || c == '8' || c == '9'

def isDigitAscii (c : Char) : Bool := c == '0' || isDig19 c

def asciiLower (c : Char) : Char :=
  if isUpperAscii c then Char.ofNat (c.toNat + 32) else c

def asciiUpper (c : Char) : Char :=
  if isLowerAscii c then Char.ofNat (c.toNat - 32) else c

/-- Python `str.lower()` (ASCII). -/
def lowerStr (s : String) : String := String.mk (s.data.map asciiLower)

/-- Helper for `titleStr`: the boolean records whether the previous character
was alphabetic (Python title-cases the first letter of every word). -/
def titleGo : Bool → List Char → List Char
  | _, [] => []
  | prev, c :: t =>
    (if isAlphaAscii c then (if prev then asciiLower c else asciiUpper c) else c)
      :: titleGo (isAlphaAscii c) t

/-- Python `str.title()` (ASCII). -/
def titleStr (s : String) : String := String.mk (titleGo false s.data)

def stripChars (cs : List Char) : List Char :=
  ((cs.dropWhile pyIsSpace).reverse.dropWhile pyIsSpace).reverse

/-- Python `str.strip()`. -/
def stripStr (s : String) : String := String.mk (stripChars s.data)

/-- Substring containment on character lists (Python's `needle in hay`). -/
def hasSubstr (needle : List Char) : List Char → Bool
  | [] => needle.isEmpty
  | c :: t => needle.isPrefixOf (c :: t) || hasSubstr needle t

/-- Python `needle in hay` for strings. -/
def strIn (needle hay : String) : Bool := hasSubstr needle.data hay.data

/-- Python `str.isdigit()` (ASCII). -/
def pyIsDigitStr (s : String) : Bool := !s.data.isEmpty && s.data.all isDigitAscii

/-- Helper for `pySplitNl`. -/
def splitNlGo (cur : List Char) : List Char → List String
  | [] => [String.mk cur.reverse]
  | c :: t =>
    if c == '\n' then String.mk cur.reverse :: splitNlGo [] t
    else splitNlGo (c :: cur) t

/-- Python `s.split('\n')`. -/
def pySplitNl (s : String) : List String := splitNlGo [] s.data

/-- Helper for `splitWs`: accumulates the current word (reversed). -/
def splitWsGo (cur : List Char) : List Char → List (List Char)
  | [] => if cur.isEmpty then [] else [cur.reverse]
  | c :: t =>
    if pyIsSpace c then
      if cur.isEmpty then splitWsGo [] t else cur.reverse :: splitWsGo [] t
    else splitWsGo (c :: cur) t

/-- Python `str.split()` with no argument: split on whitespace runs, dropping
empty fields. -/
def splitWs (cs : List Char) : List (List Char) := splitWsGo [] cs

/-- Helper for `pyReplaceDel`, fuelled by the haystack length. -/
def replaceDelGo (old : List Char) : Nat → List Char → List Char
  | _, [] => []
  | 0, s => s
  | fuel + 1, c :: t =>
    if !old.isEmpty && old.isPrefixOf (c :: t) then
      replaceDelGo old fuel (List.drop old.length (c :: t))
    else c :: replaceDelGo old fuel t

/-- Python `s.replace(old, '')`: delete every (leftmost, non-overlapping)
occurrence of `old`. -/
def pyReplaceDel (s old : String) : String :=
  String.mk (replaceDelGo old.data s.data.length s.data)

/-! ### decimal.Decimal (restricted to plain signed decimal literals)

A `decimal.Decimal` value is modelled as an unnormalized fraction
`num / 10 ^ scale`; its rational value is `Dec.toQ`. Keeping the arithmetic on
`ℤ`/`ℕ` (instead of `ℚ`) lets concrete runs be checked by `decide`. -/

def digitVal (c : Char) : ℕ := c.toNat - '0'.toNat

def natOfDigits (cs : List Char) : ℕ := cs.foldl (fun a c => 10 * a + digitVal c) 0

def pow10 : ℕ → ℕ
  | 0 => 1
  | n + 1 => 10 * pow10 n

structure Dec where
  num : ℤ
  scale : ℕ
deriving DecidableEq

/-- The rational value of a decimal. -/
def Dec.toQ (d : Dec) : ℚ := (d.num : ℚ) / ((10 : ℚ) ^ d.scale)

/-- Value comparison (`Decimal.__le__`), by cross-multiplication. -/
def Dec.leb (a b : Dec) : Bool :=
  a.num * Int.ofNat (pow10 b.scale) ≤ b.num * Int.ofNat (pow10 a.scale)

/-- Python `max` of two decimals: the second replaces the first only if
strictly greater. -/
def Dec.maxD (a b : Dec) : Dec := if Dec.leb b a then a else b

/-- Value of an unsigned decimal literal `digits [ . digits ]` with at least one
digit; `none` for anything else. -/
def parseDecCore (cs : List Char) : Option Dec :=
  let ip := cs.takeWhile isDigitAscii
  let rest := cs.dropWhile isDigitAscii
  match rest with
  | [] => if ip.isEmpty then none else some ⟨Int.ofNat (natOfDigits ip), 0⟩
  | '.' :: fp =>
    if fp.all isDigitAscii && (!ip.isEmpty || !fp.isEmpty) then
      some ⟨Int.ofNat (natOfDigits ip * pow10 fp.length + natOfDigits fp), fp.length⟩
    else none
  | _ => none

/-- Model of `decimal.Decimal(s)` on the fragment reachable from the source's regex
captures (optionally signed plain decimal literals); `none` models the
constructor raising `InvalidOperation`. -/
def parseDecimal (s : String) : Option Dec :=
  match s.data with
  | [] => none
  | c :: t =>
    if c == '-' then (parseDecCore t).map (fun d => ⟨-d.num, d.scale⟩)
    else if c == '+' then parseDecCore t
    else parseDecCore (c :: t)

/-- Python `max` over a list (`none` on the empty list, where Python raises). -/
def maxListDec : List Dec → Option Dec
  | [] => none
  | d :: t => some (t.foldl Dec.maxD d)

/-! ### datetime.strptime for the formats used by the source -/

structure PyDate where
  year : ℕ
  month : ℕ
  day : ℕ
deriving DecidableEq

def isLeap (y : ℕ) : Bool := y % 4 == 0 && (y % 100 != 0 || y % 400 == 0)

def daysInMonth (y m : ℕ) : ℕ :=
  if m == 2 then (if isLeap y then 29 else 28)
  else if m == 4 || m == 6 || m == 9 || m == 11 then 30
  else 31

/-- Candidate parses for `%m`, in the alternation order of CPython's
`_strptime` regex `1[0-2]|0[1-9]|[1-9]`. -/
def candMonth : List Char → List (ℕ × List Char)
  | c1 :: c2 :: t =>
    (if c1 == '1' && (c2 == '0' || c2 == '1' || c2 == '2') then [(10 + digitVal c2, t)] else []) ++
    (if c1 == '0' && isDig19 c2 then [(digitVal c2, t)] else []) ++
    (if isDig19 c1 then [(digitVal c1, c2 :: t)] else [])
  | [c1] => if isDig19 c1 then [(digitVal c1, [])] else []
  | [] => []

/-- Candidate parses for `%d`, order of `3[01]|[12]\d|0[1-9]|[1-9]`. -/
def candDay : List Char → List (ℕ × List Char)
  | c1 :: c2 :: t =>
    (if c1 == '3' && (c2 == '0' || c2 == '1') then [(30 + digitVal c2, t)] else []) ++
    (if (c1 == '1' || c1 == '2') && isDigitAscii c2 then
      [(10 * digitVal c1 + digitVal c2, t)] else []) ++
    (if c1 == '0' && isDig19 c2 then [(digitVal c2, t)] else []) ++
    (if isDig19 c1 then [(digitVal c1, c2 :: t)] else [])
  | [c1] => if isDig19 c1 then [(digitVal c1, [])] else []
  | [] => []

/-- Directive `%Y`: exactly four digits (`\d\d\d\d` in `_strptime`). -/
def candYear : List Char → List (ℕ × List Char)
  | c1 :: c2 :: c3 :: c4 :: t =>
    if isDigitAscii c1 && isDigitAscii c2 && isDigitAscii c3 && isDigitAscii c4 then
      [(natOfDigits [c1, c2, c3, c4], t)] else []
  | _ => []

inductive FmtTok where
  | dirM | dirD | dirY
  | sep (c : Char)

/-- Run a format over the input with full backtracking across directive
alternatives; requires the whole input consumed (strptime's "unconverted data
remains"), then validates the date as `datetime.__new__` does. -/
def runFmt : List FmtTok → List Char → Option ℕ → Option ℕ → Option ℕ → Option PyDate
  | [], s, m?, d?, y? =>
    if !s.isEmpty then none
    else
      match m?, d?, y? with
      | some m, some d, some y =>
        if 1 ≤ y && 1 ≤ d && d ≤ daysInMonth y m then some ⟨y, m, d⟩ else none
      | _, _, _ => none
  | .dirM :: rest, s, _, d?, y? =>
    (candMonth s).findSome? fun p => runFmt rest p.2 (some p.1) d? y?
  | .dirD :: rest, s, m?, _, y? =>
    (candDay s).findSome? fun p => runFmt rest p.2 m? (some p.1) y?
  | .dirY :: rest, s, m?, d?, _ =>
    (candYear s).findSome? fun p => runFmt rest p.2 m? d? (some p.1)
  | .sep c :: rest, s, m?, d?, y? =>
    match s with
    | c2 :: t => if c2 == c then runFmt rest t m? d? y? else none
    | [] => none

def fmtMDYslash : List FmtTok := [.dirM, .sep '/', .dirD, .sep '/', .dirY]

def fmtDMYslash : List FmtTok := [.dirD, .sep '/', .dirM, .sep '/', .dirY]

def fmtYMDdash : List FmtTok := [.dirY, .sep '-', .dirM, .sep '-', .dirD]

def fmtMDYdash : List FmtTok := [.dirM, .sep '-', .dirD, .sep '-', .dirY]

def fmtDMYdash : List FmtTok := [.dirD, .sep '-', .dirM, .sep '-', .dirY]

/-- Model of `datetime.strptime(s, fmt)` restricted to the five formats the source
passes; `none` models `ValueError`. -/
def strptime (fmt : List FmtTok) (s : String) : Option PyDate :=
  runFmt fmt s.data none none none

/-! ### A small backtracking regex engine (the fragment `re` needs here) -/

inductive RE where
  | eps
  | cls (p : Char → Bool)
  | seq (a b : RE)
  | alt (a b : RE)
  | rep (p : Char → Bool) (lo : ℕ) (hi : Option ℕ) (lazyq : Bool)
  | eol

/-- Consume exactly `n` class characters, then continue. -/
def loGo (p : Char → Bool) : ℕ → List Char → (List Char → Option α) → Option α
  | 0, s, k => k s
  | _ + 1, [], _ => none
  | n + 1, c :: t, k => if p c then loGo p n t k else none

/-- Consume up to `n` further class characters; `lazyq` controls whether the
shortest (lazy) or longest (greedy) extension is tried first, with full
backtracking through the continuation. -/
def optGo (p : Char → Bool) (lazyq : Bool) : ℕ → List Char → (List Char → Option α) → Option α
  | 0, s, k => k s
  | n + 1, s, k =>
    match s with
    | [] => k []
    | c :: t =>
      if p c then
        if lazyq then k s <|> optGo p lazyq n t k
        else optGo p lazyq n t k <|> k s
      else k s

/-- CPS backtracking matcher; alternatives are tried left to right, mirroring
Python `re` priority. `eol` is Python's `$` without `re.MULTILINE`: end of
input, or just before a final newline. -/
def matchM : RE → List Char → (List Char → Option α) → Option α
  | .eps, s, k => k s
  | .cls p, s, k =>
    match s with
    | [] => none
    | c :: t => if p c then k t else none
  | .seq a b, s, k => matchM a s fun s2 => matchM b s2 k
  | .alt a b, s, k => matchM a s k <|> matchM b s k
  | .rep p lo hi lazyq, s, k =>
    loGo p lo s fun s2 =>
      optGo p lazyq (match hi with | some h => h - lo | none => s2.length) s2 k
  | .eol, s, k => if s.isEmpty || s == ['\n'] then k s else none

/-- A source pattern, split around its (unique) capture group. Patterns with no
group put the whole expression in `grp`. -/
structure Pat where
  pre : RE
  grp : RE
  post : RE

/-- A match: the full matched text (`group(0)`), the capture (`group(1)`), and
the input remaining after the match. -/
structure MRes where
  g0 : List Char
  g1 : List Char
  rest : List Char
deriving DecidableEq

/-- Try to match `p` at the start of `s`. -/
def matchPat (p : Pat) (s : List Char) : Option MRes :=
  matchM p.pre s fun s1 =>
    matchM p.grp s1 fun s2 =>
      matchM p.post s2 fun s3 =>
        some ⟨s.take (s.length - s3.length), s1.take (s1.length - s2.length), s3⟩

/-- Leftmost match: try each start position left to right (Python `re.search`).
-/
def searchGo (p : Pat) : List Char → Option MRes
  | [] => matchPat p []
  | c :: t =>
    match matchPat p (c :: t) with
    | some r => some r
    | none => searchGo p t

/-- Python `re.search(pattern, s)`. -/
def search (p : Pat) (s : String) : Option MRes := searchGo p s.data

/-- Helper for `findall`, fuelled; resumes after each (non-overlapping) match,
advancing one character past an empty match as Python's scanner does. -/
def findallGo (p : Pat) : ℕ → List Char → List MRes
  | 0, _ => []
  | fuel + 1, s =>
    match searchGo p s with
    | none => []
    | some r =>
      if r.g0.isEmpty then
        match r.rest with
        | [] => [r]
        | _ :: t => r :: findallGo p fuel t
      else r :: findallGo p fuel r.rest

def findall (p : Pat) (s : String) : List MRes := findallGo p (s.data.length + 1) s.data

/-- Python `re.findall` on a single-group pattern: the list of `group(1)`
captures. -/
def findallCaps (p : Pat) (s : String) : List (List Char) := (findall p s).map MRes.g1

/-! ### Character classes and pattern constructors used by the source -/

def clsDigit : Char → Bool := isDigitAscii

def clsWs : Char → Bool := pyIsSpace

def clsColonWs (c : Char) : Bool := c == ':' || pyIsSpace c

def clsDollar (c : Char) : Bool := c == '$'

def clsDot (c : Char) : Bool := c == '.'

def clsComma (c : Char) : Bool := c == ','

def clsStar (c : Char) : Bool := c == '*'

def clsSlashDash (c : Char) : Bool := c == '/' || c == '-'

def clsAlphaWs (c : Char) : Bool := isAlphaAscii c || pyIsSpace c

/-- The class of `^[\d\s\-\(\)]+$` in the OCR merchant scan. -/
def clsMerchantSkip (c : Char) : Bool :=
  isDigitAscii c || pyIsSpace c || c == '-' || c == '(' || c == ')'

/-- Case-insensitive single character (the effect of `re.IGNORECASE` on a
literal). -/
def clsCI (c : Char) : Char → Bool := fun x => asciiLower x == asciiLower c

/-- Case-insensitive literal string. -/
def litCI (s : String) : RE :=
  s.data.foldr (fun c r => RE.seq (RE.cls (clsCI c)) r) RE.eps

def altList : List RE → RE
  | [] => RE.eps
  | [r] => r
  | r :: rest => RE.alt r (altList rest)

def reDigits1 : RE := RE.rep clsDigit 1 none false

/-- Regex `\d+\.?\d*` -/
def reDecCore : RE :=
  RE.seq reDigits1 (RE.seq (RE.rep clsDot 0 (some 1) false) (RE.rep clsDigit 0 none false))

/-- Regex `\d+\.\d{2}` -/
def reDec2 : RE := RE.seq reDigits1 (RE.seq (RE.cls clsDot) (RE.rep clsDigit 2 (some 2) false))

def reWs1 : RE := RE.rep clsWs 1 none false

def reWs0 : RE := RE.rep clsWs 0 none false

def reD12 : RE := RE.rep clsDigit 1 (some 2) false

def reD24 : RE := RE.rep clsDigit 2 (some 4) false

def reD4 : RE := RE.rep clsDigit 4 (some 4) false

/-! ### OCR receipt extraction (src/app/tasks/ocr_tasks.py, extract_receipt_data) -/

/-- Pattern `total[:\s]*\$?(\d+\.?\d*)` and the other keyword-amount patterns. -/
def patKwAmount (kw : String) : Pat :=
  ⟨RE.seq (litCI kw) (RE.seq (RE.rep clsColonWs 0 none false) (RE.rep clsDollar 0 (some 1) false)),
   reDecCore, RE.eps⟩

/-- Pattern `\$(\d+\.\d{2})` -/
def patDollarDec2 : Pat := ⟨RE.cls clsDollar, reDec2, RE.eps⟩

/-- Pattern `(\d+\.\d{2})\s*$` -/
def patDec2Eol : Pat := ⟨RE.eps, reDec2, RE.seq reWs0 RE.eol⟩

def ocrAmountPats : List Pat :=
  [patKwAmount "total", patKwAmount "amount", patDollarDec2, patDec2Eol]

def ocrTaxPats : List Pat := [patKwAmount "tax", patKwAmount "hst", patKwAmount "gst"]

def ocrTipPats : List Pat := [patKwAmount "tip", patKwAmount "gratuity"]

/-- Pattern `(\d{1,2}[/\-]\d{1,2}[/\-]\d{2,4})` -/
def patNumDate1 : Pat :=
  ⟨RE.eps,
   RE.seq reD12 (RE.seq (RE.cls clsSlashDash) (RE.seq reD12 (RE.seq (RE.cls clsSlashDash) reD24))),
   RE.eps⟩

/-- Pattern `(\d{4}[/\-]\d{1,2}[/\-]\d{1,2})` -/
def patNumDate2 : Pat :=
  ⟨RE.eps,
   RE.seq reD4 (RE.seq (RE.cls clsSlashDash) (RE.seq reD12 (RE.seq (RE.cls clsSlashDash) reD12))),
   RE.eps⟩

def monthNames : List String :=
  ["jan", "feb", "mar", "apr", "may", "jun", "jul", "aug", "sep", "oct", "nov", "dec"]

def reMonthAlt : RE := altList (monthNames.map litCI)

/-- Pattern `(jan|...|dec)\s+\d{1,2},?\s+\d{4}` — the group captures only the month
token. -/
def patMonthDate : Pat :=
  ⟨RE.eps, reMonthAlt,
   RE.seq reWs1 (RE.seq reD12 (RE.seq (RE.rep clsComma 0 (some 1) false) (RE.seq reWs1 reD4)))⟩

def ocrDatePats : List Pat := [patNumDate1, patNumDate2, patMonthDate]

def ocrDateFmts : List (List FmtTok) := [fmtMDYslash, fmtDMYslash, fmtYMDdash, fmtMDYdash]

/-- Pattern `\$\d+\.\d{2}` (no group; used only as an existence test). -/
def patDollarDec2Whole : Pat := ⟨RE.eps, RE.seq (RE.cls clsDollar) reDec2, RE.eps⟩

/-- Pattern `\$?(\d+\.\d{2})` — the line-item price pattern; `group(0)` includes the
optional dollar sign. -/
def patPrice : Pat := ⟨RE.rep clsDollar 0 (some 1) false, reDec2, RE.eps⟩

/-- Pattern `^[\d\s\-\(\)]+$` via `re.match` on a stripped line. -/
def merchantSkipPat : Pat := ⟨RE.eps, RE.rep clsMerchantSkip 1 none false, RE.eol⟩

structure LineItem where
  description : String
  total_price : Dec
deriving DecidableEq

structure ExtractedReceipt where
  merchant_name : Option String := none
  amount : Option Dec := none
  tax_amount : Option Dec := none
  tip_amount : Option Dec := none
  transaction_date : Option PyDate := none
  line_items : Option (List LineItem) := none
deriving DecidableEq

/-- Merchant scan: first of the first 5 lines that, stripped, has length > 3
and does not fully match `^[\d\s\-\(\)]+$`. -/
def ocrMerchant (lines : List String) : Option String :=
  ((lines.take 5).map stripStr).findSome? fun l =>
    if l.length > 3 && (matchPat merchantSkipPat l.data).isNone then some l else none

/-- The amount loop: first pattern with any match; `Decimal(matches[-1])`;
a parse failure falls through to the next pattern (`except: continue`). -/
def pickLastAmount : List Pat → String → Option Dec
  | [], _ => none
  | p :: ps, text =>
    match (findallCaps p text).getLast? with
    | none => pickLastAmount ps text
    | some cap =>
      match parseDecimal (String.mk cap) with
      | some v => some v
      | none => pickLastAmount ps text

/-- The tax/tip loops: as `pickLastAmount` but `Decimal(matches[0])`. -/
def pickFirstAmount : List Pat → String → Option Dec
  | [], _ => none
  | p :: ps, text =>
    match (findallCaps p text).head? with
    | none => pickFirstAmount ps text
    | some cap =>
      match parseDecimal (String.mk cap) with
      | some v => some v
      | none => pickFirstAmount ps text

/-- Date section: the first pattern with any match supplies `matches[0]`; the
format list is then tried in order, and the loop breaks whether or not any
format parsed. -/
def ocrDate (text : String) : Option PyDate :=
  (ocrDatePats.findSome? fun p => (findallCaps p text).head?).bind fun ds =>
    ocrDateFmts.findSome? fun f => strptime f (String.mk ds)

/-- Computes `line.replace(price_match.group(0), '').strip()`. -/
def lineItemDescr (line : String) (r : MRes) : String :=
  stripStr (pyReplaceDel line (String.mk r.g0))

/-- One line of the line-item loop. Outer `none` models the unguarded
`Decimal(price_match.group(1))` raising; `some none` means the line yields no
item. -/
def lineItemOf (line : String) : Option (Option LineItem) :=
  if (search patDollarDec2Whole line).isSome && (stripStr line).length > 5 then
    if (splitWs (stripStr line).data).length ≥ 2 then
      match search patPrice line with
      | some r =>
        if lineItemDescr line r != "" then
          match parseDecimal (String.mk r.g1) with
          | some v => some (some ⟨lineItemDescr line r, v⟩)
          | none => none
        else some none
      | none => some none
    else some none
  else some none

def collectLineItems : List String → Option (List LineItem)
  | [] => some []
  | l :: ls =>
    match lineItemOf l with
    | none => none
    | some none => collectLineItems ls
    | some (some it) => (collectLineItems ls).map (it :: ·)

/-- Model of `extract_receipt_data` (ocr_tasks.py:127-230). The result is `none` only if
an exception would escape (the unguarded `Decimal` in the line-item loop). -/
def extract_receipt_data (text : String) : Option ExtractedReceipt :=
  (collectLineItems (pySplitNl text)).map fun items =>
    { merchant_name := ocrMerchant (pySplitNl text)
      amount := pickLastAmount ocrAmountPats text
      tax_amount := pickFirstAmount ocrTaxPats text
      tip_amount := pickFirstAmount ocrTipPats text
      transaction_date := ocrDate text
      line_items := if items.isEmpty then none else some items }

/-! ### SMS parsing (src/app/services/twilio_service.py, parse_receipt_sms) -/

def smsAltTail : RE :=
  altList [RE.seq reWs1 (litCI "on"), RE.seq reWs1 (litCI "for"), RE.seq reWs0 (RE.cls clsDollar)]

/-- Pattern `at\s+([A-Za-z\s]+?)(?:\s+on|\s+for|\s*\$)` -/
def patAtX : Pat := ⟨RE.seq (litCI "at") reWs1, RE.rep clsAlphaWs 1 none true, smsAltTail⟩

/-- Pattern `from\s+([A-Za-z\s]+?)(?:\s+on|\s+for|\s*\$)` -/
def patFromX : Pat := ⟨RE.seq (litCI "from") reWs1, RE.rep clsAlphaWs 1 none true, smsAltTail⟩

/-- Pattern `([A-Za-z\s]+?)\s+charged` -/
def patXCharged : Pat := ⟨RE.eps, RE.rep clsAlphaWs 1 none true, RE.seq reWs1 (litCI "charged")⟩

/-- Pattern `([A-Za-z\s]+?)\s+transaction` -/
def patXTransaction : Pat :=
  ⟨RE.eps, RE.rep clsAlphaWs 1 none true, RE.seq reWs1 (litCI "transaction")⟩

def smsMerchantPats : List Pat := [patAtX, patFromX, patXCharged, patXTransaction]

/-- Pattern `\$(\d+\.?\d*)` -/
def patDollarDec : Pat := ⟨RE.cls clsDollar, reDecCore, RE.eps⟩

/-- Pattern `(\d+\.\d{2})` -/
def patDec2Any : Pat := ⟨RE.eps, reDec2, RE.eps⟩

def smsAmountPats : List Pat :=
  [patDollarDec, patKwAmount "amount", patKwAmount "charged", patKwAmount "paid", patDec2Any]

/-- Pattern `on\s+(\d{1,2}[/\-]\d{1,2}[/\-]\d{2,4})` -/
def patOnDate : Pat :=
  ⟨RE.seq (litCI "on") reWs1,
   RE.seq reD12 (RE.seq (RE.cls clsSlashDash) (RE.seq reD12 (RE.seq (RE.cls clsSlashDash) reD24))),
   RE.eps⟩

/-- Pattern `(jan|...|dec)\s+\d{1,2}` -/
def patMonthDay : Pat := ⟨RE.eps, reMonthAlt, RE.seq reWs1 reD12⟩

def smsDatePats : List Pat := [patOnDate, patNumDate1, patMonthDay]

def smsDateFmts : List (List FmtTok) := [fmtMDYslash, fmtDMYslash, fmtMDYdash, fmtDMYdash]

/-- Pattern `card\s+ending\s+in\s+(\d{4})` -/
def patCardEnding : Pat :=
  ⟨RE.seq (litCI "card")
     (RE.seq reWs1 (RE.seq (litCI "ending") (RE.seq reWs1 (RE.seq (litCI "in") reWs1)))),
   reD4, RE.eps⟩

/-- Pattern `card\s+\*+(\d{4})` -/
def patCardStars : Pat :=
  ⟨RE.seq (litCI "card") (RE.seq reWs1 (RE.rep clsStar 1 none false)), reD4, RE.eps⟩

/-- Pattern `\*+(\d{4})` -/
def patStars : Pat := ⟨RE.rep clsStar 1 none false, reD4, RE.eps⟩

def smsCardPats : List Pat := [patCardEnding, patCardStars, patStars]

def smsKeywords : List String :=
  ["receipt", "purchase", "transaction", "payment", "charged", "paid"]

def smsIsReceipt (body : String) : Bool :=
  smsKeywords.any fun k => strIn k (lowerStr body)

/-- Merchant loop: first pattern whose leftmost match, stripped, has length > 2
and is not purely numeric. -/
def smsMerchant (body : String) : Option String :=
  smsMerchantPats.findSome? fun p =>
    match search p body with
    | none => none
    | some r =>
      let m := stripStr (String.mk r.g1)
      if m.length > 2 && !pyIsDigitStr m then some m else none

def parseAllDec : List (List Char) → Option (List Dec)
  | [] => some []
  | c :: t =>
    match parseDecimal (String.mk c) with
    | none => none
    | some v => (parseAllDec t).map (v :: ·)

/-- Amount loop: first pattern with any match; all its matches are converted
and the maximum taken; a conversion failure falls through to the next pattern.
-/
def smsPickMax : List Pat → String → Option Dec
  | [], _ => none
  | p :: ps, text =>
    let caps := findallCaps p text
    if caps.isEmpty then smsPickMax ps text
    else
      match parseAllDec caps with
      | some vs => maxListDec vs
      | none => smsPickMax ps text

/-- Date: defaults to `now`; the first pattern with a search match supplies
`group(1)`, the format list is tried in order, and the loop breaks whether or
not any format parsed. -/
def smsDate (body : String) (now : PyDate) : PyDate :=
  match smsDatePats.findSome? fun p => (search p body).map MRes.g1 with
  | none => now
  | some ds =>
    match smsDateFmts.findSome? fun f => strptime f (String.mk ds) with
    | some d => d
    | none => now

def smsCard (body : String) : Option String :=
  smsCardPats.findSome? fun p => (search p body).map fun r => String.mk r.g1

structure ExtractedSms where
  merchant_name : Option String := none
  amount : Option Dec := none
  transaction_date : PyDate
  card_last_four : Option String := none
  sms_body : String
  sms_sender : String
deriving DecidableEq

/-- Model of `parse_receipt_sms` (twilio_service.py:55-148). `now` parameterises
`datetime.now()`. -/
def parse_receipt_sms (body sender : String) (now : PyDate) : Option ExtractedSms :=
  if body == "" then none
  else if !smsIsReceipt body then none
  else some
    { merchant_name := smsMerchant body
      amount := smsPickMax smsAmountPats body
      transaction_date := smsDate body now
      card_last_four := smsCard body
      sms_body := body
      sms_sender := sender }

/-! ### Categorization (src/app/services/categorization_service.py) -/

structure Category where
  name : String
  keywords : Option (List String) := none
  is_active : Bool := true
  is_system : Bool := false
  level : ℕ := 0
deriving DecidableEq

/-- Truthiness check `if category.keywords:`, then any keyword, lowercased, contained in the
lowercased merchant name. -/
def catKeywordHit (merchantLower : String) (c : Category) : Bool :=
  match c.keywords with
  | none => false
  | some kws => !kws.isEmpty && kws.any fun k => strIn (lowerStr k) merchantLower

/-- The query `filter(is_active == True, keywords.isnot(None))` in stored
order. -/
def activeKeywordCats (db : List Category) : List Category :=
  db.filter fun c => c.is_active && c.keywords.isSome

def ruleMatch (merchantLower : String) (db : List Category) : Option Category :=
  (activeKeywordCats db).find? (catKeywordHit merchantLower)

def builtinTable : List (String × List String) :=
  [("food", ["restaurant", "cafe", "pizza", "burger", "food", "kitchen", "diner", "grill", "bistro"]),
   ("groceries", ["grocery", "supermarket", "market", "walmart", "target", "costco", "safeway"]),
   ("gas", ["gas", "fuel", "shell", "exxon", "bp", "chevron", "mobil"]),
   ("shopping", ["store", "shop", "retail", "amazon", "ebay", "mall"]),
   ("transport", ["uber", "lyft", "taxi", "bus", "train", "metro", "parking"]),
   ("entertainment", ["movie", "cinema", "theater", "netflix", "spotify", "game"]),
   ("utilities", ["electric", "water", "gas", "internet", "phone", "cable"]),
   ("healthcare", ["hospital", "clinic", "pharmacy", "doctor", "medical", "health"])]

/-- First (category, pattern) pair, in declared order, with the pattern
contained in the lowercased merchant name. -/
def builtinHit (merchantLower : String) : Option String :=
  (builtinTable.find? fun e => e.2.any fun p => strIn p merchantLower).map Prod.fst

/-- Model of `get_or_create_category`: case-insensitive lookup by name, else insert a
fresh system category named `name.title()`. -/
def get_or_create_category (name : String) (db : List Category) :
    Category × List Category :=
  match db.find? (fun c => lowerStr c.name == lowerStr name) with
  | some c => (c, db)
  | none =>
    let c : Category :=
      { name := titleStr name, keywords := none, is_active := true, is_system := true, level := 0 }
    (c, db ++ [c])

/-- Model of `auto_categorize_receipt` (categorization_service.py:22-63); the returned
list is the category store after the call. -/
def auto_categorize_receipt : Option String → List Category →
    Option Category × List Category
  | none, db => (none, db)
  | some m, db =>
    if m == "" then (none, db)
    else
      match ruleMatch (lowerStr m) db with
      | some c => (some c, db)
      | none =>
        match builtinHit (lowerStr m) with
        | some n => ((get_or_create_category n db).1, (get_or_create_category n db).2)
        | none => (none, db)

def descPhraseHit (dl : String) (ws : List String) : Bool := ws.any fun w => strIn w dl

/-- The merchant-name rule step of `auto_categorize_transaction` (an empty or
absent merchant name is falsy and skips the step). -/
def actRuleStep : Option String → List Category → Option Category
  | none, _ => none
  | some m, db => if m == "" then none else ruleMatch (lowerStr m) db

/-- The description step of `auto_categorize_transaction`: the three predefined
phrase tables, tried in order against the lowercased description. -/
def actDescStep : Option String → List Category → Option Category × List Category
  | none, db => (none, db)
  | some d, db =>
    if d == "" then (none, db)
    else if descPhraseHit (lowerStr d) ["atm", "withdrawal", "cash"] then
      ((get_or_create_category "cash" db).1, (get_or_create_category "cash" db).2)
    else if descPhraseHit (lowerStr d) ["transfer", "deposit"] then
      ((get_or_create_category "transfer" db).1, (get_or_create_category "transfer" db).2)
    else if descPhraseHit (lowerStr d) ["fee", "charge", "service"] then
      ((get_or_create_category "fees" db).1, (get_or_create_category "fees" db).2)
    else (none, db)

/-- Model of `auto_categorize_transaction` (categorization_service.py:65-101). -/
def auto_categorize_transaction (merchant_name description : Option String)
    (db : List Category) : Option Category × List Category :=
  match actRuleStep merchant_name db with
  | some c => (some c, db)
  | none => actDescStep description db

/-! ### Declarative acceptance (used to reason about captures) -/

/-- Relation `Accepts r u`: the regex `r` can consume exactly the characters `u`. -/
inductive Accepts : RE → List Char → Prop
  | eps : Accepts .eps []
  | cls {p : Char → Bool} {c : Char} : p c = true → Accepts (.cls p) [c]
  | seq {a b : RE} {u v : List Char} :
      Accepts a u → Accepts b v → Accepts (.seq a b) (u ++ v)
  | altL {a b : RE} {u : List Char} : Accepts a u → Accepts (.alt a b) u
  | altR {a b : RE} {u : List Char} : Accepts b u → Accepts (.alt a b) u
  | rep {p : Char → Bool} {lo : ℕ} {hi : Option ℕ} {lz : Bool} {u : List Char} :
      (∀ c ∈ u, p c = true) → lo ≤ u.length →
      (∀ h, hi = some h → u.length ≤ max h lo) → Accepts (.rep p lo hi lz) u
  | eol : Accepts .eol []

/-- First letters of the twelve month abbreviations. -/
def isMonthLetter (c : Char) : Bool :=
  c == 'j' || c == 'f' || c == 'm' || c == 'a' || c == 's' || c == 'o' || c == 'n' || c == 'd'

/-- A character that can start a capture of the month-name alternation. -/
def monthHeadCI (d : Char) : Bool := isMonthLetter (asciiLower d)

/-! ### Claim-side (spec-worded) definitions -/

/-- C1, as worded: first amount pattern with any match, its last occurrence. -/
def claimOcrLastAmount (text : String) : Option Dec :=
  (ocrAmountPats.findSome? fun p => (findallCaps p text).getLast?).bind
    fun cap => parseDecimal (String.mk cap)

/-- C1, as worded for tax/tip: first pattern with any match, first occurrence. -/
def claimOcrFirstAmount (pats : List Pat) (text : String) : Option Dec :=
  (pats.findSome? fun p => (findallCaps p text).head?).bind
    fun cap => parseDecimal (String.mk cap)

/-- ASCII punctuation: the printable ASCII characters that are neither
alphanumeric nor whitespace (exactly Python's `string.punctuation`). -/
def isPunctAscii (c : Char) : Bool :=
  33 ≤ c.toNat && c.toNat ≤ 126 && !(isAlphaAscii c || isDigitAscii c)

/-- C7 as stated: first of the first 5 stripped lines with length > 3 not
composed solely of digits, whitespace and punctuation. -/
def claimC7Merchant (text : String) : Option String :=
  (((pySplitNl text).take 5).map stripStr).findSome? fun l =>
    if l.length > 3 && !(l.data.all fun c => isDigitAscii c || pyIsSpace c || isPunctAscii c)
    then some l else none

/-- C7 amended: the excluded class is digits, whitespace, hyphens and
parentheses (the source's `[\d\s\-\(\)]`), not all punctuation. -/
def amendedC7Merchant (text : String) : Option String :=
  (((pySplitNl text).take 5).map stripStr).findSome? fun l =>
    if l.length > 3 && !(l.data.all clsMerchantSkip) then some l else none

/-- C5 as stated: the maximum over the matches of all amount patterns
together. -/
def claimC5MaxAcross (body : String) : Option Dec :=
  maxListDec ((smsAmountPats.flatMap fun p => findallCaps p body).filterMap
    fun cap => parseDecimal (String.mk cap))

/-- C5 amended: the maximum over the matches of the first pattern (in the fixed
order) that matches at all. -/
def amendedC5Max (body : String) : Option Dec :=
  (smsAmountPats.findSome? fun p =>
    match findallCaps p body with
    | [] => none
    | caps => some caps).bind
    fun caps => maxListDec (caps.filterMap fun cap => parseDecimal (String.mk cap))

/-- C2, as worded: first rule in stored order that is active and has a
lowercased keyword contained in the lowercased merchant name. -/
def claimRuleMatch (m : String) (db : List Category) : Option Category :=
  db.find? fun c => c.is_active && catKeywordHit (lowerStr m) c

/-- C9, as worded: the description-only phrase fallback. -/
def claimDescFallback (d : String) (db : List Category) : Option Category × List Category :=
  if descPhraseHit (lowerStr d) ["atm", "withdrawal", "cash"] then
    ((get_or_create_category "cash" db).1, (get_or_create_category "cash" db).2)
  else if descPhraseHit (lowerStr d) ["transfer", "deposit"] then
    ((get_or_create_category "transfer" db).1, (get_or_create_category "transfer" db).2)
  else if descPhraseHit (lowerStr d) ["fee", "charge", "service"] then
    ((get_or_create_category "fees" db).1, (get_or_create_category "fees" db).2)
  else (none, db)

/-- The user rule of C2's bistro scenario. -/
def fineDiningCat : Category :=
  { name := "Fine Dining", keywords := some ["bistro"], is_active := true }

/-- A pattern whose capture group is one of the two decimal shapes. -/
def decGrp (p : Pat) : Prop := p.grp = reDecCore ∨ p.grp = reDec2

/-- The category materialized by C3's Shell scenario. -/
def gasCat : Category :=
  { name := "Gas", keywords := none, is_active := true, is_system := true, level := 0 }

/-! ### Soundness of the matcher w.r.t. `Accepts` -/

theorem orElse_some {α : Type} {x y : Option α} {a : α} (h : (x <|> y) = some a) :
    x = some a ∨ y = some a := by
  cases x with
  | none => right; simpa using h
  | some b => left; simpa using h

theorem loGo_sound {α : Type} {p : Char → Bool} :
    ∀ {n : ℕ} {s : List Char} {k : List Char → Option α} {a : α},
      loGo p n s k = some a →
      ∃ u v, s = u ++ v ∧ u.length = n ∧ (∀ c ∈ u, p c = true) ∧ k v = some a := by
  intro n
  induction n with
  | zero => exact fun h => ⟨[], _, rfl, rfl, by simp, h⟩
  | succ n ih =>
    intro s k a h
    cases s with
    | nil => simp [loGo] at h
    | cons c t =>
      rw [loGo] at h
      by_cases hc : p c = true
      · rw [if_pos hc] at h
        obtain ⟨u, v, rfl, hlen, hall, hk⟩ := ih h
        refine ⟨c :: u, v, rfl, by simp [hlen], ?_, hk⟩
        intro x hx
        rcases List.mem_cons.1 hx with rfl | hx
        · exact hc
        · exact hall x hx
      · rw [if_neg hc] at h
        exact absurd h (by simp)

theorem optGo_sound {α : Type} {p : Char → Bool} {lz : Bool} :
    ∀ {n : ℕ} {s : List Char} {k : List Char → Option α} {a : α},
      optGo p lz n s k = some a →
      ∃ u v, s = u ++ v ∧ u.length ≤ n ∧ (∀ c ∈ u, p c = true) ∧ k v = some a := by
  intro n
  induction n with
  | zero => exact fun h => ⟨[], _, rfl, by simp, by simp, h⟩
  | succ n ih =>
    intro s k a h
    cases s with
    | nil =>
      rw [optGo] at h
      exact ⟨[], [], rfl, by simp, by simp, h⟩
    | cons c t =>
      rw [optGo] at h
      by_cases hc : p c = true
      · rw [if_pos hc] at h
        have step : optGo p lz n t k = some a ∨ k (c :: t) = some a := by
          cases lz with
          | true => rcases orElse_some (by simpa using h) with h1 | h1
                    · exact Or.inr h1
                    · exact Or.inl h1
          | false => rcases orElse_some (by simpa using h) with h1 | h1
                     · exact Or.inl h1
                     · exact Or.inr h1
        rcases step with h1 | h1
        · obtain ⟨u, v, rfl, hlen, hall, hk⟩ := ih h1
          refine ⟨c :: u, v, rfl, by simp; omega, ?_, hk⟩
          intro x hx
          rcases List.mem_cons.1 hx with rfl | hx
          · exact hc
          · exact hall x hx
        · exact ⟨[], c :: t, rfl, by simp, by simp, h1⟩
      · rw [if_neg hc] at h
        exact ⟨[], c :: t, rfl, by simp, by simp, h⟩

theorem matchM_sound {α : Type} :
    ∀ {r : RE} {s : List Char} {k : List Char → Option α} {a : α},
      matchM r s k = some a → ∃ u v, s = u ++ v ∧ Accepts r u ∧ k v = some a := by
  intro r
  induction r with
  | eps =>
    intro s k a h
    exact ⟨[], s, rfl, Accepts.eps, by simpa [matchM] using h⟩
  | cls p =>
    intro s k a h
    cases s with
    | nil => simp [matchM] at h
    | cons c t =>
      rw [matchM] at h
      by_cases hc : p c = true
      · rw [if_pos hc] at h
        exact ⟨[c], t, rfl, Accepts.cls hc, h⟩
      · rw [if_neg hc] at h
        exact absurd h (by simp)
  | seq a b iha ihb =>
    intro s k x h
    rw [matchM] at h
    obtain ⟨u1, v1, rfl, hacc1, h1⟩ := iha h
    obtain ⟨u2, v2, rfl, hacc2, h2⟩ := ihb h1
    exact ⟨u1 ++ u2, v2, by simp, Accepts.seq hacc1 hacc2, h2⟩
  | alt a b iha ihb =>
    intro s k x h
    rw [matchM] at h
    rcases orElse_some h with h1 | h1
    · obtain ⟨u, v, rfl, hacc, hk⟩ := iha h1
      exact ⟨u, v, rfl, Accepts.altL hacc, hk⟩
    · obtain ⟨u, v, rfl, hacc, hk⟩ := ihb h1
      exact ⟨u, v, rfl, Accepts.altR hacc, hk⟩
  | rep p lo hi lz =>
    intro s k x h
    rw [matchM] at h
    obtain ⟨u1, v1, rfl, hlen1, hall1, h1⟩ := loGo_sound h
    obtain ⟨u2, v2, rfl, hlen2, hall2, h2⟩ := optGo_sound h1
    refine ⟨u1 ++ u2, v2, by simp, ?_, h2⟩
    refine Accepts.rep ?_ ?_ ?_
    · intro c hc
      rcases List.mem_append.1 hc with hc | hc
      · exact hall1 c hc
      · exact hall2 c hc
    · simp [hlen1]
    · intro hh hhi
      subst hhi
      have hlen2b : u2.length ≤ hh - lo := hlen2
      simp only [List.length_append]
      omega
  | eol =>
    intro s k x h
    rw [matchM] at h
    by_cases hg : (s.isEmpty || s == ['\n']) = true
    · rw [if_pos hg] at h
      exact ⟨[], s, rfl, Accepts.eol, h⟩
    · rw [if_neg hg] at h
      exact absurd h (by simp)

theorem matchPat_sound {p : Pat} {s : List Char} {r : MRes}
    (h : matchPat p s = some r) : Accepts p.grp r.g1 := by
  unfold matchPat at h
  obtain ⟨u1, v1, rfl, hpre, h1⟩ := matchM_sound h
  obtain ⟨u2, v2, hv1, hgrp, h2⟩ := matchM_sound h1
  obtain ⟨u3, v3, hv2, hpost, h3⟩ := matchM_sound h2
  have hr : r.g1 = v1.take (v1.length - v2.length) := by
    have := Option.some.inj h3
    rw [← this]
  rw [hr, hv1]
  have : (u2 ++ v2).length - v2.length = u2.length := by simp
  rw [this, List.take_left]
  exact hgrp

theorem searchGo_sound {p : Pat} :
    ∀ {s : List Char} {r : MRes}, searchGo p s = some r → Accepts p.grp r.g1 := by
  intro s
  induction s with
  | nil =>
    intro r h
    rw [searchGo] at h
    exact matchPat_sound h
  | cons c t ih =>
    intro r h
    rw [searchGo] at h
    cases hm : matchPat p (c :: t) with
    | some r2 =>
      rw [hm] at h
      cases h
      exact matchPat_sound hm
    | none =>
      rw [hm] at h
      exact ih h

theorem search_sound {p : Pat} {s : String} {r : MRes}
    (h : search p s = some r) : Accepts p.grp r.g1 := searchGo_sound h

theorem findallGo_sound {p : Pat} :
    ∀ {fuel : ℕ} {s : List Char} {r : MRes},
      r ∈ findallGo p fuel s → Accepts p.grp r.g1 := by
  intro fuel
  induction fuel with
  | zero =>
    intro s r h
    simp [findallGo] at h
  | succ n ih =>
    intro s r h
    rw [findallGo] at h
    cases hs : searchGo p s with
    | none =>
      rw [hs] at h
      simp at h
    | some r0 =>
      rw [hs] at h
      have h2 : r ∈ (if r0.g0.isEmpty = true then
          (match r0.rest with
           | [] => [r0]
           | _ :: t => r0 :: findallGo p n t)
          else r0 :: findallGo p n r0.rest) := h
      by_cases hg : r0.g0.isEmpty = true
      · rw [if_pos hg] at h2
        cases hr : r0.rest with
        | nil =>
          rw [hr] at h2
          rcases List.mem_singleton.1 h2 with rfl
          exact searchGo_sound hs
        | cons c t =>
          rw [hr] at h2
          rcases List.mem_cons.1 h2 with rfl | h2
          · exact searchGo_sound hs
          · exact ih h2
      · rw [if_neg hg] at h2
        rcases List.mem_cons.1 h2 with rfl | h2
        · exact searchGo_sound hs
        · exact ih h2

theorem findallCaps_sound {p : Pat} {text : String} {cap : List Char}
    (h : cap ∈ findallCaps p text) : Accepts p.grp cap := by
  simp only [findallCaps, findall, List.mem_map] at h
  obtain ⟨r, hr, rfl⟩ := h
  exact findallGo_sound hr

/-! ### Captured decimals always convert, and are non-negative -/

theorem takeWhile_append_all {p : Char → Bool} :
    ∀ {a b : List Char}, (∀ c ∈ a, p c = true) →
      (a ++ b).takeWhile p = a ++ b.takeWhile p := by
  intro a
  induction a with
  | nil => intro b _; simp
  | cons c t ih =>
    intro b h
    have hc : p c = true := h c (List.mem_cons_self c t)
    simp only [List.cons_append, List.takeWhile_cons, hc, if_true]
    rw [ih fun x hx => h x (List.mem_cons_of_mem c hx)]

theorem dropWhile_append_all {p : Char → Bool} :
    ∀ {a b : List Char}, (∀ c ∈ a, p c = true) →
      (a ++ b).dropWhile p = b.dropWhile p := by
  intro a
  induction a with
  | nil => intro b _; simp
  | cons c t ih =>
    intro b h
    have hc : p c = true := h c (List.mem_cons_self c t)
    simp only [List.cons_append, List.dropWhile_cons, hc, if_true]
    exact ih fun x hx => h x (List.mem_cons_of_mem c hx)

theorem takeWhile_all {p : Char → Bool} {l : List Char} (h : ∀ c ∈ l, p c = true) :
    l.takeWhile p = l := by
  simpa using takeWhile_append_all (b := []) h

theorem dropWhile_all {p : Char → Bool} {l : List Char} (h : ∀ c ∈ l, p c = true) :
    l.dropWhile p = [] := by
  simpa using dropWhile_append_all (b := []) h

theorem dig19_cases {d : Char} (h : isDig19 d = true) :
    d = '1' ∨ d = '2' ∨ d = '3' ∨ d = '4' ∨ d = '5' ∨
    d = '6' ∨ d = '7' ∨ d = '8' ∨ d = '9' := by
  simp only [isDig19, Bool.or_eq_true, beq_iff_eq] at h
  tauto

theorem digit_cases {d : Char} (h : isDigitAscii d = true) :
    d = '0' ∨ d = '1' ∨ d = '2' ∨ d = '3' ∨ d = '4' ∨ d = '5' ∨
    d = '6' ∨ d = '7' ∨ d = '8' ∨ d = '9' := by
  simp only [isDigitAscii, isDig19, Bool.or_eq_true, beq_iff_eq] at h
  tauto

theorem digit_ne_sign {d : Char} (h : isDigitAscii d = true) :
    (d == '-') = false ∧ (d == '+') = false := by
  rcases digit_cases h with rfl | rfl | rfl | rfl | rfl | rfl | rfl | rfl | rfl | rfl <;>
    exact ⟨rfl, rfl⟩

theorem parseDecimal_mk_cons (a0 : Char) (rest : List Char) :
    parseDecimal (String.mk (a0 :: rest)) =
      (if a0 == '-' then (parseDecCore rest).map (fun d => (⟨-d.num, d.scale⟩ : Dec))
       else if a0 == '+' then parseDecCore rest
       else parseDecCore (a0 :: rest)) := rfl

theorem intOfNat_nonneg (n : ℕ) : 0 ≤ Int.ofNat n := Int.ofNat_le.2 (Nat.zero_le n)

theorem parseDecCore_shape {a b c : List Char}
    (ha : ∀ x ∈ a, isDigitAscii x = true) (ha1 : a ≠ [])
    (hb : b = [] ∨ b = ['.']) (hc : ∀ x ∈ c, isDigitAscii x = true) :
    ∃ d, parseDecCore (a ++ b ++ c) = some d ∧ 0 ≤ d.num := by
  rcases hb with rfl | rfl
  · have hall : ∀ x ∈ a ++ c, isDigitAscii x = true := by
      intro x hx
      rcases List.mem_append.1 hx with hx | hx
      exacts [ha x hx, hc x hx]
    have hne : (a ++ c).isEmpty = false := by
      cases a with
      | nil => exact absurd rfl ha1
      | cons y t => rfl
    refine ⟨⟨Int.ofNat (natOfDigits (a ++ c)), 0⟩, ?_, intOfNat_nonneg _⟩
    rw [List.append_nil]
    unfold parseDecCore
    rw [takeWhile_all hall, dropWhile_all hall]
    simp [hne]
  · have hdot : ('.' :: c).takeWhile isDigitAscii = [] := by
      simp [List.takeWhile_cons, show isDigitAscii '.' = false by decide]
    have hdot2 : ('.' :: c).dropWhile isDigitAscii = '.' :: c := by
      simp [List.dropWhile_cons, show isDigitAscii '.' = false by decide]
    have hne : a.isEmpty = false := by
      cases a with
      | nil => exact absurd rfl ha1
      | cons y t => rfl
    refine ⟨⟨Int.ofNat (natOfDigits a * pow10 c.length + natOfDigits c), c.length⟩, ?_,
      intOfNat_nonneg _⟩
    rw [List.append_assoc, List.singleton_append]
    unfold parseDecCore
    rw [takeWhile_append_all ha, dropWhile_append_all ha, hdot, hdot2, List.append_nil]
    simp [List.all_eq_true.2 hc, hne]

theorem parseDecimal_shape {a b c : List Char}
    (ha : ∀ x ∈ a, isDigitAscii x = true) (ha1 : a ≠ [])
    (hb : b = [] ∨ b = ['.']) (hc : ∀ x ∈ c, isDigitAscii x = true) :
    ∃ d, parseDecimal (String.mk (a ++ b ++ c)) = some d ∧ 0 ≤ d.num := by
  cases a with
  | nil => exact absurd rfl ha1
  | cons a0 a' =>
    have h0 : isDigitAscii a0 = true := ha a0 (List.mem_cons_self _ _)
    obtain ⟨hm, hp⟩ := digit_ne_sign h0
    have hcons : (a0 :: a') ++ b ++ c = a0 :: (a' ++ b ++ c) := by simp
    rw [hcons, parseDecimal_mk_cons, hm, hp]
    simp only [Bool.false_eq_true, if_false]
    have := parseDecCore_shape ha ha1 hb hc
    simpa [hcons] using this

theorem accepts_rep_facts {p : Char → Bool} {lo : ℕ} {hi : Option ℕ} {lz : Bool}
    {u : List Char} (h : Accepts (RE.rep p lo hi lz) u) :
    (∀ c ∈ u, p c = true) ∧ lo ≤ u.length ∧ ∀ hh, hi = some hh → u.length ≤ max hh lo := by
  cases h with
  | rep h1 h2 h3 => exact ⟨h1, h2, h3⟩

theorem accepts_decCore {u : List Char} (h : Accepts reDecCore u) :
    ∃ d, parseDecimal (String.mk u) = some d ∧ 0 ≤ d.num := by
  unfold reDecCore at h
  cases h with
  | seq h1 h23 =>
    rename_i a bc
    cases h23 with
    | seq h2 h3 =>
      rename_i b c
      obtain ⟨ha, ha1, -⟩ := accepts_rep_facts (by unfold reDigits1 at h1; exact h1)
      obtain ⟨hball, hblen0, hbhi⟩ := accepts_rep_facts h2
      obtain ⟨hcall, -, -⟩ := accepts_rep_facts h3
      have hblen : b.length ≤ 1 := by
        have := hbhi 1 rfl
        omega
      have hb : b = [] ∨ b = ['.'] := by
        cases b with
        | nil => exact Or.inl rfl
        | cons x t =>
          cases t with
          | nil =>
            right
            have hx := hball x (List.mem_cons_self _ _)
            have : x = '.' := eq_of_beq hx
            rw [this]
          | cons y t2 => simp at hblen
      have hane : a ≠ [] := by
        intro hnil
        rw [hnil] at ha1
        simp at ha1
      rw [← List.append_assoc]
      exact parseDecimal_shape ha hane hb hcall

theorem accepts_dec2 {u : List Char} (h : Accepts reDec2 u) :
    ∃ d, parseDecimal (String.mk u) = some d ∧ 0 ≤ d.num := by
  unfold reDec2 at h
  cases h with
  | seq h1 h23 =>
    rename_i a bc
    cases h23 with
    | seq h2 h3 =>
      rename_i b c
      obtain ⟨ha, ha1, -⟩ := accepts_rep_facts (by unfold reDigits1 at h1; exact h1)
      obtain ⟨hcall, -, -⟩ := accepts_rep_facts h3
      have hb : b = ['.'] := by
        cases h2 with
        | cls hx =>
          rename_i x
          have : x = '.' := eq_of_beq hx
          rw [this]
      have hane : a ≠ [] := by
        intro hnil
        rw [hnil] at ha1
        simp at ha1
      rw [← List.append_assoc]
      exact parseDecimal_shape ha hane (Or.inr hb) hcall

theorem capParse_of_decGrp {p : Pat} (hg : decGrp p) {text : String} {cap : List Char}
    (hc : cap ∈ findallCaps p text) :
    ∃ d, parseDecimal (String.mk cap) = some d ∧ 0 ≤ d.num := by
  have hacc := findallCaps_sound hc
  rcases hg with hg | hg <;> rw [hg] at hacc
  · exact accepts_decCore hacc
  · exact accepts_dec2 hacc

theorem ocrAmountPats_decGrp : ∀ p ∈ ocrAmountPats, decGrp p := by
  intro p hp
  simp only [ocrAmountPats, List.mem_cons, List.not_mem_nil, or_false] at hp
  rcases hp with rfl | rfl | rfl | rfl
  exacts [Or.inl rfl, Or.inl rfl, Or.inr rfl, Or.inr rfl]

theorem ocrTaxPats_decGrp : ∀ p ∈ ocrTaxPats, decGrp p := by
  intro p hp
  simp only [ocrTaxPats, List.mem_cons, List.not_mem_nil, or_false] at hp
  rcases hp with rfl | rfl | rfl
  exacts [Or.inl rfl, Or.inl rfl, Or.inl rfl]

theorem ocrTipPats_decGrp : ∀ p ∈ ocrTipPats, decGrp p := by
  intro p hp
  simp only [ocrTipPats, List.mem_cons, List.not_mem_nil, or_false] at hp
  rcases hp with rfl | rfl
  exacts [Or.inl rfl, Or.inl rfl]

theorem smsAmountPats_decGrp : ∀ p ∈ smsAmountPats, decGrp p := by
  intro p hp
  simp only [smsAmountPats, List.mem_cons, List.not_mem_nil, or_false] at hp
  rcases hp with rfl | rfl | rfl | rfl | rfl
  exacts [Or.inl rfl, Or.inl rfl, Or.inl rfl, Or.inl rfl, Or.inr rfl]

/-! ### The amount loops against their claim-side descriptions -/

theorem getLast?_mem {α : Type} : ∀ {l : List α} {a : α}, l.getLast? = some a → a ∈ l := by
  intro l
  induction l with
  | nil => intro a h; simp at h
  | cons x t ih =>
    intro a h
    cases t with
    | nil =>
      simp only [List.getLast?_singleton, Option.some.injEq] at h
      simp [h]
    | cons y t2 =>
      rw [List.getLast?_cons_cons] at h
      exact List.mem_cons_of_mem x (ih h)

theorem head?_mem {α : Type} {l : List α} {a : α} (h : l.head? = some a) : a ∈ l := by
  cases l with
  | nil => simp at h
  | cons x t =>
    simp only [List.head?_cons, Option.some.injEq] at h
    simp [h]

theorem pickLast_eq {pats : List Pat} {text : String} (hp : ∀ p ∈ pats, decGrp p) :
    pickLastAmount pats text =
      (pats.findSome? fun p => (findallCaps p text).getLast?).bind
        fun cap => parseDecimal (String.mk cap) := by
  induction pats with
  | nil => rfl
  | cons p ps ih =>
    rw [pickLastAmount, List.findSome?_cons]
    cases hl : (findallCaps p text).getLast? with
    | none => exact ih fun q hq => hp q (List.mem_cons_of_mem p hq)
    | some cap =>
      obtain ⟨d, hd, -⟩ :=
        capParse_of_decGrp (hp p (List.mem_cons_self p ps)) (getLast?_mem hl)
      simp only [hd, Option.some_bind]

theorem pickFirst_eq {pats : List Pat} {text : String} (hp : ∀ p ∈ pats, decGrp p) :
    pickFirstAmount pats text =
      (pats.findSome? fun p => (findallCaps p text).head?).bind
        fun cap => parseDecimal (String.mk cap) := by
  induction pats with
  | nil => rfl
  | cons p ps ih =>
    rw [pickFirstAmount, List.findSome?_cons]
    cases hl : (findallCaps p text).head? with
    | none => exact ih fun q hq => hp q (List.mem_cons_of_mem p hq)
    | some cap =>
      obtain ⟨d, hd, -⟩ :=
        capParse_of_decGrp (hp p (List.mem_cons_self p ps)) (head?_mem hl)
      simp only [hd, Option.some_bind]

theorem pickLast_nonneg {pats : List Pat} {text : String} {d : Dec}
    (hp : ∀ p ∈ pats, decGrp p) (h : pickLastAmount pats text = some d) : 0 ≤ d.num := by
  induction pats with
  | nil => simp [pickLastAmount] at h
  | cons p ps ih =>
    rw [pickLastAmount] at h
    cases hl : (findallCaps p text).getLast? with
    | none =>
      rw [hl] at h
      exact ih (fun q hq => hp q (List.mem_cons_of_mem p hq)) h
    | some cap =>
      rw [hl] at h
      obtain ⟨d2, hd2, hn⟩ :=
        capParse_of_decGrp (hp p (List.mem_cons_self p ps)) (getLast?_mem hl)
      simp only [hd2, Option.some.injEq] at h
      exact h ▸ hn

theorem pickFirst_nonneg {pats : List Pat} {text : String} {d : Dec}
    (hp : ∀ p ∈ pats, decGrp p) (h : pickFirstAmount pats text = some d) : 0 ≤ d.num := by
  induction pats with
  | nil => simp [pickFirstAmount] at h
  | cons p ps ih =>
    rw [pickFirstAmount] at h
    cases hl : (findallCaps p text).head? with
    | none =>
      rw [hl] at h
      exact ih (fun q hq => hp q (List.mem_cons_of_mem p hq)) h
    | some cap =>
      rw [hl] at h
      obtain ⟨d2, hd2, hn⟩ :=
        capParse_of_decGrp (hp p (List.mem_cons_self p ps)) (head?_mem hl)
      simp only [hd2, Option.some.injEq] at h
      exact h ▸ hn

/-! ### Structure of the extractor results -/

theorem lineItemOf_shape (line : String) :
    ∃ o, lineItemOf line = some o ∧ ∀ it, o = some it → 0 ≤ it.total_price.num := by
  unfold lineItemOf
  by_cases h1 : ((search patDollarDec2Whole line).isSome && (stripStr line).length > 5) = true
  · rw [if_pos h1]
    by_cases h2 : (splitWs (stripStr line).data).length ≥ 2
    · rw [if_pos h2]
      cases hs : search patPrice line with
      | none => exact ⟨none, rfl, by simp⟩
      | some r =>
        have hacc : Accepts reDec2 r.g1 := search_sound hs
        obtain ⟨d, hd, hn⟩ := accepts_dec2 hacc
        by_cases h3 : (lineItemDescr line r != "") = true
        · refine ⟨some ⟨lineItemDescr line r, d⟩, ?_, ?_⟩
          · simp only [h3, if_true, hd]
          · intro it hit
            cases hit
            exact hn
        · refine ⟨none, ?_, by simp⟩
          simp only [h3, if_false]
          simp [h3]
    · rw [if_neg h2]
      exact ⟨none, rfl, by simp⟩
  · rw [if_neg h1]
    exact ⟨none, rfl, by simp⟩

theorem collectLineItems_shape (lines : List String) :
    ∃ items, collectLineItems lines = some items ∧ ∀ it ∈ items, 0 ≤ it.total_price.num := by
  induction lines with
  | nil => exact ⟨[], rfl, by simp⟩
  | cons l ls ih =>
    obtain ⟨items, hi, hni⟩ := ih
    obtain ⟨o, ho, hno⟩ := lineItemOf_shape l
    rw [collectLineItems, ho]
    cases o with
    | none => exact ⟨items, hi, hni⟩
    | some it =>
      rw [hi]
      refine ⟨it :: items, rfl, ?_⟩
      intro x hx
      rcases List.mem_cons.1 hx with rfl | hx
      · exact hno x rfl
      · exact hni x hx

theorem extract_fields {text : String} {r : ExtractedReceipt}
    (h : extract_receipt_data text = some r) :
    r.merchant_name = ocrMerchant (pySplitNl text) ∧
    r.amount = pickLastAmount ocrAmountPats text ∧
    r.tax_amount = pickFirstAmount ocrTaxPats text ∧
    r.tip_amount = pickFirstAmount ocrTipPats text ∧
    r.transaction_date = ocrDate text := by
  unfold extract_receipt_data at h
  cases hc : collectLineItems (pySplitNl text) with
  | none => rw [hc] at h; simp at h
  | some items =>
    rw [hc] at h
    simp only [Option.map_some', Option.some.injEq] at h
    rw [← h]
    exact ⟨rfl, rfl, rfl, rfl, rfl⟩

theorem extract_total (text : String) : ∃ r, extract_receipt_data text = some r := by
  obtain ⟨items, hi, -⟩ := collectLineItems_shape (pySplitNl text)
  unfold extract_receipt_data
  rw [hi]
  exact ⟨_, rfl⟩

theorem extract_lineItems {text : String} {r : ExtractedReceipt}
    (h : extract_receipt_data text = some r) :
    ∀ items, r.line_items = some items → ∀ it ∈ items, 0 ≤ it.total_price.num := by
  unfold extract_receipt_data at h
  cases hc : collectLineItems (pySplitNl text) with
  | none => rw [hc] at h; simp at h
  | some items0 =>
    obtain ⟨items1, hi1, hn1⟩ := collectLineItems_shape (pySplitNl text)
    rw [hi1] at hc
    cases hc
    rw [hi1] at h
    simp only [Option.map_some', Option.some.injEq] at h
    intro items hits it hit
    rw [← h] at hits
    simp only at hits
    by_cases he : items0.isEmpty = true
    · rw [if_pos he] at hits
      simp at hits
    · rw [if_neg he] at hits
      simp only [Option.some.injEq] at hits
      exact hn1 it (hits ▸ hit)

theorem sms_fields {body sender : String} {now : PyDate} {r : ExtractedSms}
    (h : parse_receipt_sms body sender now = some r) :
    r.merchant_name = smsMerchant body ∧
    r.amount = smsPickMax smsAmountPats body ∧
    r.transaction_date = smsDate body now ∧
    r.card_last_four = smsCard body ∧
    r.sms_body = body ∧ r.sms_sender = sender := by
  unfold parse_receipt_sms at h
  by_cases h1 : (body == "") = true
  · rw [if_pos h1] at h
    simp at h
  · rw [if_neg h1] at h
    by_cases h2 : (!smsIsReceipt body) = true
    · rw [if_pos h2] at h
      simp at h
    · rw [if_neg h2] at h
      simp only [Option.some.injEq] at h
      rw [← h]
      exact ⟨rfl, rfl, rfl, rfl, rfl, rfl⟩

/-! ### The SMS amount loop against its claim-side description -/

theorem parseAllDec_of_all {caps : List (List Char)}
    (h : ∀ cap ∈ caps, ∃ d, parseDecimal (String.mk cap) = some d ∧ 0 ≤ d.num) :
    ∃ vs, parseAllDec caps = some vs ∧
      caps.filterMap (fun cap => parseDecimal (String.mk cap)) = vs ∧
      ∀ v ∈ vs, 0 ≤ v.num := by
  induction caps with
  | nil => exact ⟨[], rfl, rfl, by simp⟩
  | cons c t ih =>
    obtain ⟨d, hd, hn⟩ := h c (List.mem_cons_self _ _)
    obtain ⟨vs, hvs, hfm, hnn⟩ := ih fun x hx => h x (List.mem_cons_of_mem c hx)
    refine ⟨d :: vs, ?_, ?_, ?_⟩
    · rw [parseAllDec, hd, hvs]
      simp
    · rw [List.filterMap_cons, hd, hfm]
    · intro v hv
      rcases List.mem_cons.1 hv with rfl | hv
      · exact hn
      · exact hnn v hv

theorem smsPickMax_eq {pats : List Pat} {text : String} (hp : ∀ p ∈ pats, decGrp p) :
    smsPickMax pats text =
      (pats.findSome? fun p =>
        match findallCaps p text with
        | [] => none
        | caps => some caps).bind
        fun caps => maxListDec (caps.filterMap fun cap => parseDecimal (String.mk cap)) := by
  induction pats with
  | nil => rfl
  | cons p ps ih =>
    rw [smsPickMax, List.findSome?_cons]
    cases hc : findallCaps p text with
    | nil =>
      simp only [List.isEmpty_nil, if_true]
      exact ih fun q hq => hp q (List.mem_cons_of_mem p hq)
    | cons c t =>
      have hall : ∀ cap ∈ findallCaps p text, ∃ d, parseDecimal (String.mk cap) = some d ∧ 0 ≤ d.num :=
        fun cap hcap => capParse_of_decGrp (hp p (List.mem_cons_self p ps)) hcap
      rw [hc] at hall
      obtain ⟨vs, hvs, hfm, -⟩ := parseAllDec_of_all hall
      simp only [List.isEmpty_cons, if_false, Bool.false_eq_true, hvs, hfm, Option.some_bind]

theorem foldl_maxD_mem : ∀ (t : List Dec) (a : Dec),
    t.foldl Dec.maxD a = a ∨ t.foldl Dec.maxD a ∈ t := by
  intro t
  induction t with
  | nil => intro a; left; rfl
  | cons b t ih =>
    intro a
    rw [List.foldl_cons]
    rcases ih (Dec.maxD a b) with h | h
    · rw [h]
      unfold Dec.maxD
      by_cases hc : Dec.leb b a = true
      · rw [if_pos hc]; left; rfl
      · rw [if_neg hc]; right; exact List.mem_cons_self _ _
    · right; exact List.mem_cons_of_mem b h

theorem maxListDec_mem {l : List Dec} {d : Dec} (h : maxListDec l = some d) : d ∈ l := by
  cases l with
  | nil => simp [maxListDec] at h
  | cons v vt =>
    rw [maxListDec] at h
    cases h
    rcases foldl_maxD_mem vt v with h | h
    · rw [h]; exact List.mem_cons_self _ _
    · exact List.mem_cons_of_mem v h

theorem smsPickMax_nonneg {pats : List Pat} {text : String} {d : Dec}
    (hp : ∀ p ∈ pats, decGrp p) (h : smsPickMax pats text = some d) : 0 ≤ d.num := by
  induction pats with
  | nil => simp [smsPickMax] at h
  | cons p ps ih =>
    rw [smsPickMax] at h
    cases hc : findallCaps p text with
    | nil =>
      rw [hc] at h
      simp only [List.isEmpty_nil, if_true] at h
      exact ih (fun q hq => hp q (List.mem_cons_of_mem p hq)) h
    | cons c t =>
      have hall : ∀ cap ∈ findallCaps p text,
          ∃ d2, parseDecimal (String.mk cap) = some d2 ∧ 0 ≤ d2.num :=
        fun cap hcap => capParse_of_decGrp (hp p (List.mem_cons_self p ps)) hcap
      rw [hc] at hall h
      obtain ⟨vs, hvs, -, hnn⟩ := parseAllDec_of_all hall
      simp only [List.isEmpty_cons, Bool.false_eq_true, if_false, hvs] at h
      exact hnn d (maxListDec_mem h)

/-! ### The month-name date branch can never produce a date (C10) -/

theorem accepts_litCI_head {c0 : Char} {r : RE} {u : List Char}
    (h : Accepts (RE.seq (RE.cls (clsCI c0)) r) u) :
    ∃ d t, u = d :: t ∧ clsCI c0 d = true := by
  cases h with
  | seq h1 h2 =>
    cases h1 with
    | cls hc => exact ⟨_, _, rfl, hc⟩

theorem monthAlt_head {u : List Char} (h : Accepts reMonthAlt u) :
    ∃ d t, u = d :: t ∧ monthHeadCI d = true := by
  have leaf : ∀ (c0 : Char) (r : RE), isMonthLetter (asciiLower c0) = true →
      ∀ u2 : List Char, Accepts (RE.seq (RE.cls (clsCI c0)) r) u2 →
      ∃ d t, u2 = d :: t ∧ monthHeadCI d = true := by
    intro c0 r hc0 u2 hu
    obtain ⟨d, t, rfl, hc⟩ := accepts_litCI_head hu
    refine ⟨d, t, rfl, ?_⟩
    unfold monthHeadCI
    rw [eq_of_beq hc]
    exact hc0
  have he : reMonthAlt =
      RE.alt (litCI "jan") (RE.alt (litCI "feb") (RE.alt (litCI "mar") (RE.alt (litCI "apr")
        (RE.alt (litCI "may") (RE.alt (litCI "jun") (RE.alt (litCI "jul") (RE.alt (litCI "aug")
          (RE.alt (litCI "sep") (RE.alt (litCI "oct")
            (RE.alt (litCI "nov") (litCI "dec"))))))))))) := rfl
  rw [he] at h
  cases h with
  | altL h => exact leaf 'j' _ (by decide) _ h
  | altR h =>
  cases h with
  | altL h => exact leaf 'f' _ (by decide) _ h
  | altR h =>
  cases h with
  | altL h => exact leaf 'm' _ (by decide) _ h
  | altR h =>
  cases h with
  | altL h => exact leaf 'a' _ (by decide) _ h
  | altR h =>
  cases h with
  | altL h => exact leaf 'm' _ (by decide) _ h
  | altR h =>
  cases h with
  | altL h => exact leaf 'j' _ (by decide) _ h
  | altR h =>
  cases h with
  | altL h => exact leaf 'j' _ (by decide) _ h
  | altR h =>
  cases h with
  | altL h => exact leaf 'a' _ (by decide) _ h
  | altR h =>
  cases h with
  | altL h => exact leaf 's' _ (by decide) _ h
  | altR h =>
  cases h with
  | altL h => exact leaf 'o' _ (by decide) _ h
  | altR h =>
  cases h with
  | altL h => exact leaf 'n' _ (by decide) _ h
  | altR h => exact leaf 'd' _ (by decide) _ h

theorem monthHead_not_digit {d : Char} (h : monthHeadCI d = true) :
    (d == '0') = false ∧ (d == '1') = false ∧ (d == '2') = false ∧ (d == '3') = false ∧
    isDig19 d = false ∧ isDigitAscii d = false := by
  have h0 : (d == '0') = false := by
    cases hb : d == '0'
    · rfl
    · rw [eq_of_beq hb] at h; exact absurd h (by decide)
  have h1 : (d == '1') = false := by
    cases hb : d == '1'
    · rfl
    · rw [eq_of_beq hb] at h; exact absurd h (by decide)
  have h2 : (d == '2') = false := by
    cases hb : d == '2'
    · rfl
    · rw [eq_of_beq hb] at h; exact absurd h (by decide)
  have h3 : (d == '3') = false := by
    cases hb : d == '3'
    · rfl
    · rw [eq_of_beq hb] at h; exact absurd h (by decide)
  have h19 : isDig19 d = false := by
    cases hb : isDig19 d
    · rfl
    · exfalso
      rcases dig19_cases hb with rfl | rfl | rfl | rfl | rfl | rfl | rfl | rfl | rfl <;>
        exact absurd h (by decide)
  refine ⟨h0, h1, h2, h3, h19, ?_⟩
  rw [isDigitAscii, h0, h19]
  rfl

theorem candMonth_nil_of_monthHead {d : Char} {t : List Char} (h : monthHeadCI d = true) :
    candMonth (d :: t) = [] := by
  obtain ⟨h0, h1, h2, h3, h19, hdig⟩ := monthHead_not_digit h
  cases t with
  | nil => simp [candMonth, h19]
  | cons c2 t2 => simp [candMonth, h19, h0, h1]

theorem candDay_nil_of_monthHead {d : Char} {t : List Char} (h : monthHeadCI d = true) :
    candDay (d :: t) = [] := by
  obtain ⟨h0, h1, h2, h3, h19, hdig⟩ := monthHead_not_digit h
  cases t with
  | nil => simp [candDay, h19]
  | cons c2 t2 => simp [candDay, h19, h0, h1, h2, h3]

theorem candYear_nil_of_monthHead {d : Char} {t : List Char} (h : monthHeadCI d = true) :
    candYear (d :: t) = [] := by
  obtain ⟨-, -, -, -, -, hdig⟩ := monthHead_not_digit h
  rcases t with - | ⟨c2, - | ⟨c3, - | ⟨c4, t4⟩⟩⟩
  · rfl
  · rfl
  · rfl
  · simp [candYear, hdig]

theorem strptime_monthHead_fails {d : Char} {t : List Char} (h : monthHeadCI d = true) :
    ∀ fmt ∈ ocrDateFmts, strptime fmt (String.mk (d :: t)) = none := by
  intro fmt hf
  have hsd : (String.mk (d :: t)).data = d :: t := rfl
  simp only [ocrDateFmts, List.mem_cons, List.not_mem_nil, or_false] at hf
  rcases hf with rfl | rfl | rfl | rfl
  · rw [strptime, hsd, fmtMDYslash, runFmt, candMonth_nil_of_monthHead h]
    rfl
  · rw [strptime, hsd, fmtDMYslash, runFmt, candDay_nil_of_monthHead h]
    rfl
  · rw [strptime, hsd, fmtYMDdash, runFmt, candYear_nil_of_monthHead h]
    rfl
  · rw [strptime, hsd, fmtMDYdash, runFmt, candMonth_nil_of_monthHead h]
    rfl

/-! ### The merchant-skip regex is exactly an all-chars test (C7) -/

theorem optGo_all {α : Type} {p : Char → Bool} {k : List Char → Option α} {a : α} :
    ∀ {t : List Char} {n : ℕ}, (∀ c ∈ t, p c = true) → t.length ≤ n → k [] = some a →
      optGo p false n t k = some a := by
  intro t
  induction t with
  | nil =>
    intro n _ _ hk
    cases n with
    | zero => exact hk
    | succ m => rw [optGo]; exact hk
  | cons c t2 ih =>
    intro n hall hlen hk
    cases n with
    | zero => simp at hlen
    | succ m =>
      rw [optGo]
      have hc : p c = true := hall c (List.mem_cons_self _ _)
      rw [if_pos hc]
      have : optGo p false m t2 k = some a := by
        refine ih (fun x hx => hall x (List.mem_cons_of_mem c hx)) ?_ hk
        simpa using hlen
      simp [this]

theorem merchantSkip_isSome {cs : List Char} :
    (matchPat merchantSkipPat cs).isSome = (!cs.isEmpty && cs.all clsMerchantSkip) := by
  cases hm : matchPat merchantSkipPat cs with
  | some r =>
    have h2 : matchM (RE.rep clsMerchantSkip 1 none false) cs
        (fun s2 => matchM RE.eol s2
          (fun s3 => some (⟨cs.take (cs.length - s3.length),
            cs.take (cs.length - s2.length), s3⟩ : MRes))) = some r := hm
    obtain ⟨u, v, rfl, hacc, hk⟩ := matchM_sound h2
    obtain ⟨hall, hlen, -⟩ := accepts_rep_facts hacc
    rw [matchM] at hk
    by_cases hg : (v.isEmpty || v == ['\n']) = true
    · have hv : v = [] ∨ v = ['\n'] := by
        rcases Bool.or_eq_true_iff.1 hg with hg | hg
        · left; exact List.isEmpty_iff.1 hg
        · right; exact eq_of_beq hg
      have hne : (u ++ v).isEmpty = false := by
        cases u with
        | nil => simp at hlen
        | cons x t => rfl
      have hallv : ∀ c ∈ u ++ v, clsMerchantSkip c = true := by
        intro c hc
        rcases List.mem_append.1 hc with hc | hc
        · exact hall c hc
        · rcases hv with rfl | rfl
          · simp at hc
          · rcases List.mem_singleton.1 hc with rfl
            decide
      rw [hne, List.all_eq_true.2 hallv]
      rfl
    · rw [if_neg hg] at hk
      exact absurd hk (by simp)
  | none =>
    cases hne : cs.isEmpty with
    | true => rfl
    | false =>
      cases hall : cs.all clsMerchantSkip with
      | false => rfl
      | true =>
        exfalso
        cases cs with
        | nil => simp at hne
        | cons c t =>
          have hc : clsMerchantSkip c = true := by
            have := List.all_eq_true.1 hall
            exact this c (List.mem_cons_self _ _)
          have hallt : ∀ x ∈ t, clsMerchantSkip x = true := by
            intro x hx
            exact List.all_eq_true.1 hall x (List.mem_cons_of_mem c hx)
          have hrun : matchPat merchantSkipPat (c :: t) ≠ none := by
            intro hcon
            have hstep : matchPat merchantSkipPat (c :: t) =
                optGo clsMerchantSkip false t.length t
                  (fun s2 => matchM RE.eol s2
                    (fun s3 => some (⟨(c :: t).take ((c :: t).length - s3.length),
                      (c :: t).take ((c :: t).length - s2.length), s3⟩ : MRes))) := by
              show matchM (RE.rep clsMerchantSkip 1 none false) (c :: t) _ = _
              rw [matchM, loGo, if_pos hc]
              rfl
            rw [hstep] at hcon
            have : optGo clsMerchantSkip false t.length t
                (fun s2 => matchM RE.eol s2
                  (fun s3 => some (⟨(c :: t).take ((c :: t).length - s3.length),
                    (c :: t).take ((c :: t).length - s2.length), s3⟩ : MRes))) =
                some ⟨(c :: t).take ((c :: t).length - 0),
                  (c :: t).take ((c :: t).length - 0), []⟩ := by
              refine optGo_all hallt (le_refl _) ?_
              rw [matchM]
              rfl
            rw [this] at hcon
            exact absurd hcon (by simp)
          exact hrun hm

theorem ocrMerchant_eq_amended (text : String) :
    ocrMerchant (pySplitNl text) = amendedC7Merchant text := by
  unfold ocrMerchant amendedC7Merchant
  congr 1
  funext l
  by_cases h3 : 3 < l.length
  · have hne : l.data.isEmpty = false := by
      cases hd : l.data with
      | nil =>
        exfalso
        have : l.length = 0 := by
          show l.data.length = 0
          rw [hd]
          rfl
        omega
      | cons c t => rfl
    have hnone : (matchPat merchantSkipPat l.data).isNone =
        !((matchPat merchantSkipPat l.data).isSome) := by
      cases matchPat merchantSkipPat l.data <;> rfl
    rw [hnone, merchantSkip_isSome, hne]
    simp
  · simp [h3]

/-! ### Categorization lemmas -/

theorem ruleMatch_eq_claim (ml : String) (db : List Category) :
    ruleMatch ml db = db.find? fun c => c.is_active && catKeywordHit ml c := by
  unfold ruleMatch activeKeywordCats
  induction db with
  | nil => rfl
  | cons c t ih =>
    cases hf : (c.is_active && c.keywords.isSome) with
    | true =>
      rw [List.filter_cons, hf]
      simp only [if_true]
      rw [List.find?_cons, List.find?_cons]
      have hact : c.is_active = true := (Bool.and_eq_true_iff.1 hf).1
      rw [hact]
      cases hhit : catKeywordHit ml c with
      | true => rfl
      | false => simpa using ih
    | false =>
      rw [List.filter_cons, hf]
      simp only [Bool.false_eq_true, if_false]
      rw [List.find?_cons]
      have : (c.is_active && catKeywordHit ml c) = false := by
        cases hact : c.is_active with
        | false => rfl
        | true =>
          rw [hact] at hf
          have hks : c.keywords.isSome = false := by simpa using hf
          have : c.keywords = none := by
            cases hk : c.keywords
            · rfl
            · rw [hk] at hks; simp at hks
          rw [catKeywordHit, this]
          simp
      rw [this]
      simpa using ih

theorem ruleMatch_mem {ml : String} {db : List Category} {c : Category}
    (h : ruleMatch ml db = some c) : c ∈ db :=
  List.mem_of_mem_filter (List.mem_of_find?_eq_some h)

theorem builtinHit_mem {ml : String} {n : String} (h : builtinHit ml = some n) :
    n ∈ builtinTable.map Prod.fst := by
  unfold builtinHit at h
  cases hf : builtinTable.find? fun e => e.2.any fun p => strIn p ml with
  | none => rw [hf] at h; simp at h
  | some e =>
    rw [hf] at h
    simp only [Option.map_some', Option.some.injEq] at h
    rw [← h]
    exact List.mem_map_of_mem Prod.fst (List.mem_of_find?_eq_some hf)

theorem builtin_lower_title {ml n : String} (h : builtinHit ml = some n) :
    lowerStr (titleStr n) = lowerStr n := by
  have hmem := builtinHit_mem h
  have hall : ∀ x ∈ builtinTable.map Prod.fst, lowerStr (titleStr x) = lowerStr x := by decide
  exact hall n hmem

theorem toQ_nonneg {d : Dec} (h : 0 ≤ d.num) : 0 ≤ d.toQ := by
  unfold Dec.toQ
  apply div_nonneg
  · exact_mod_cast h
  · positivity

/-- C1: for every OCR text, the amount is the last occurrence of the first
matching pattern in the fixed precedence total, amount, dollar-figure, trailing
figure, while tax and tip take the first occurrence of their first matching
pattern; on the STARBUCKS receipt this yields merchant "STARBUCKS",
tax 0.40 and amount 4.90 (the last total-pattern match). -/
theorem claim_C1 :
    (∀ text r, extract_receipt_data text = some r →
       r.amount = claimOcrLastAmount text ∧
       r.tax_amount = claimOcrFirstAmount ocrTaxPats text ∧
       r.tip_amount = claimOcrFirstAmount ocrTipPats text) ∧
    (extract_receipt_data "STARBUCKS\n123 Main St\nLatte ... $4.50\nTax $0.40\nTotal $4.90\n").map
      (fun r => (r.merchant_name, r.tax_amount, r.amount)) =
      some (some "STARBUCKS", some ⟨40, 2⟩, some ⟨490, 2⟩) ∧
    Dec.toQ ⟨40, 2⟩ = 2/5 ∧ Dec.toQ ⟨490, 2⟩ = 49/10 := by
  refine ⟨?_, by decide, by norm_num [Dec.toQ], by norm_num [Dec.toQ]⟩
  intro text r h
  obtain ⟨-, ha, htax, htip, -⟩ := extract_fields h
  refine ⟨?_, ?_, ?_⟩
  · rw [ha]
    exact pickLast_eq ocrAmountPats_decGrp
  · rw [htax]
    exact pickFirst_eq ocrTaxPats_decGrp
  · rw [htip]
    exact pickFirst_eq ocrTipPats_decGrp

/-- Witness for C1 at the STARBUCKS receipt. -/
theorem claim_C1_witness :
    ({ merchant_name := some "STARBUCKS", amount := some ⟨490, 2⟩, tax_amount := some ⟨40, 2⟩,
       tip_amount := none, transaction_date := none,
       line_items := some [⟨"Latte ...", ⟨450, 2⟩⟩, ⟨"Tax", ⟨40, 2⟩⟩, ⟨"Total", ⟨490, 2⟩⟩] } :
        ExtractedReceipt).amount =
      claimOcrLastAmount "STARBUCKS\n123 Main St\nLatte ... $4.50\nTax $0.40\nTotal $4.90\n" ∧
    ({ merchant_name := some "STARBUCKS", amount := some ⟨490, 2⟩, tax_amount := some ⟨40, 2⟩,
       tip_amount := none, transaction_date := none,
       line_items := some [⟨"Latte ...", ⟨450, 2⟩⟩, ⟨"Tax", ⟨40, 2⟩⟩, ⟨"Total", ⟨490, 2⟩⟩] } :
        ExtractedReceipt).tax_amount =
      claimOcrFirstAmount ocrTaxPats "STARBUCKS\n123 Main St\nLatte ... $4.50\nTax $0.40\nTotal $4.90\n" ∧
    ({ merchant_name := some "STARBUCKS", amount := some ⟨490, 2⟩, tax_amount := some ⟨40, 2⟩,
       tip_amount := none, transaction_date := none,
       line_items := some [⟨"Latte ...", ⟨450, 2⟩⟩, ⟨"Tax", ⟨40, 2⟩⟩, ⟨"Total", ⟨490, 2⟩⟩] } :
        ExtractedReceipt).tip_amount =
      claimOcrFirstAmount ocrTipPats "STARBUCKS\n123 Main St\nLatte ... $4.50\nTax $0.40\nTotal $4.90\n" :=
  claim_C1.1 "STARBUCKS\n123 Main St\nLatte ... $4.50\nTax $0.40\nTotal $4.90\n" _ (by decide)

/-- C4: `parse_receipt_sms` returns none exactly when the body contains none of
the fixed keywords receipt, purchase, transaction, payment, charged, paid
(case-insensitively); otherwise it returns a record that always carries the raw
body, the sender and a transaction date. In particular "just saying hi" from
+15551234567 yields none. -/
theorem claim_C4 :
    (∀ body sender now, parse_receipt_sms body sender now = none ↔ smsIsReceipt body = false) ∧
    (∀ body sender now r, parse_receipt_sms body sender now = some r →
       r.sms_body = body ∧ r.sms_sender = sender ∧ r.transaction_date = smsDate body now) ∧
    parse_receipt_sms "just saying hi" "+15551234567" ⟨2024, 1, 1⟩ = none := by
  refine ⟨?_, ?_, by decide⟩
  · intro body sender now
    unfold parse_receipt_sms
    by_cases h1 : (body == "") = true
    · rw [if_pos h1]
      have hb : body = "" := eq_of_beq h1
      subst hb
      simp [show smsIsReceipt "" = false by decide]
    · rw [if_neg h1]
      cases h2 : smsIsReceipt body <;> simp [h2]
  · intro body sender now r h
    obtain ⟨-, -, hd, -, hb, hs⟩ := sms_fields h
    exact ⟨hb, hs, hd⟩

/-- Witness for C4 at a keyword-bearing SMS. -/
theorem claim_C4_witness :
    ({ merchant_name := none, amount := some ⟨500, 2⟩, transaction_date := ⟨2024, 1, 1⟩,
       card_last_four := none, sms_body := "payment of $5.00 and 45.00",
       sms_sender := "+15551234567" } : ExtractedSms).sms_body = "payment of $5.00 and 45.00" ∧
    ({ merchant_name := none, amount := some ⟨500, 2⟩, transaction_date := ⟨2024, 1, 1⟩,
       card_last_four := none, sms_body := "payment of $5.00 and 45.00",
       sms_sender := "+15551234567" } : ExtractedSms).sms_sender = "+15551234567" ∧
    ({ merchant_name := none, amount := some ⟨500, 2⟩, transaction_date := ⟨2024, 1, 1⟩,
       card_last_four := none, sms_body := "payment of $5.00 and 45.00",
       sms_sender := "+15551234567" } : ExtractedSms).transaction_date =
      smsDate "payment of $5.00 and 45.00" ⟨2024, 1, 1⟩ :=
  claim_C4.2.1 "payment of $5.00 and 45.00" "+15551234567" ⟨2024, 1, 1⟩ _ (by decide)

/-- C8: `extract_receipt_data` never raises (modelled: always returns a record)
and every decimal it produces — amount, tax, tip, line-item prices — has a
non-negative value. -/
theorem claim_C8 : ∀ text : String, ∃ r, extract_receipt_data text = some r ∧
    (∀ d, r.amount = some d → 0 ≤ d.toQ) ∧
    (∀ d, r.tax_amount = some d → 0 ≤ d.toQ) ∧
    (∀ d, r.tip_amount = some d → 0 ≤ d.toQ) ∧
    (∀ items, r.line_items = some items → ∀ it ∈ items, 0 ≤ it.total_price.toQ) := by
  intro text
  obtain ⟨r, hr⟩ := extract_total text
  obtain ⟨-, ha, htax, htip, -⟩ := extract_fields hr
  refine ⟨r, hr, ?_, ?_, ?_, ?_⟩
  · intro d hd
    rw [ha] at hd
    exact toQ_nonneg (pickLast_nonneg ocrAmountPats_decGrp hd)
  · intro d hd
    rw [htax] at hd
    exact toQ_nonneg (pickFirst_nonneg ocrTaxPats_decGrp hd)
  · intro d hd
    rw [htip] at hd
    exact toQ_nonneg (pickFirst_nonneg ocrTipPats_decGrp hd)
  · intro items hits it hit
    exact toQ_nonneg (extract_lineItems hr items hits it hit)

/-- Witness for C8 at the STARBUCKS receipt. -/
theorem claim_C8_witness :
    ∃ r, extract_receipt_data "STARBUCKS\n123 Main St\nLatte ... $4.50\nTax $0.40\nTotal $4.90\n"
        = some r ∧
      (∀ d, r.amount = some d → 0 ≤ d.toQ) ∧
      (∀ d, r.tax_amount = some d → 0 ≤ d.toQ) ∧
      (∀ d, r.tip_amount = some d → 0 ≤ d.toQ) ∧
      (∀ items, r.line_items = some items → ∀ it ∈ items, 0 ≤ it.total_price.toQ) :=
  claim_C8 "STARBUCKS\n123 Main St\nLatte ... $4.50\nTax $0.40\nTotal $4.90\n"

theorem findSome?_some {α β : Type} {f : α → Option β} :
    ∀ {l : List α} {b : β}, l.findSome? f = some b → ∃ a ∈ l, f a = some b := by
  intro l
  induction l with
  | nil => intro b h; simp [List.findSome?_nil] at h
  | cons x t ih =>
    intro b h
    rw [List.findSome?_cons] at h
    cases hf : f x with
    | some y =>
      simp only [hf] at h
      exact ⟨x, List.mem_cons_self _ _, hf.trans h⟩
    | none =>
      simp only [hf] at h
      obtain ⟨a, ha, hfa⟩ := ih h
      exact ⟨a, List.mem_cons_of_mem x ha, hfa⟩

/-- C10: when neither numeric date regex matches but the month-name regex does,
the extractor omits the transaction date entirely: the month-name group
captures only the month token, which none of the four date formats can parse. -/
theorem claim_C10 : ∀ text r, extract_receipt_data text = some r →
    findall patNumDate1 text = [] → findall patNumDate2 text = [] →
    findallCaps patMonthDate text ≠ [] → r.transaction_date = none := by
  intro text r h h1 h2 h3
  rw [(extract_fields h).2.2.2.2]
  unfold ocrDate
  have hc1 : findallCaps patNumDate1 text = [] := by
    unfold findallCaps
    rw [h1]
    rfl
  have hc2 : findallCaps patNumDate2 text = [] := by
    unfold findallCaps
    rw [h2]
    rfl
  cases hh : (findallCaps patMonthDate text).head? with
  | none =>
    exfalso
    apply h3
    cases hcs : findallCaps patMonthDate text with
    | nil => rfl
    | cons c t => rw [hcs] at hh; simp at hh
  | some ds =>
    have hmem : ds ∈ findallCaps patMonthDate text := head?_mem hh
    have hacc : Accepts reMonthAlt ds := findallCaps_sound hmem
    obtain ⟨d, t, rfl, hhead⟩ := monthAlt_head hacc
    have hfs : (ocrDatePats.findSome? fun p => (findallCaps p text).head?) = some (d :: t) := by
      simp only [ocrDatePats, List.findSome?_cons, hc1, hc2, hh]
      rfl
    rw [hfs, Option.some_bind]
    have hnone : ∀ fmt ∈ ocrDateFmts, strptime fmt (String.mk (d :: t)) = none :=
      strptime_monthHead_fails hhead
    cases hfmts : ocrDateFmts.findSome? fun f => strptime f (String.mk (d :: t)) with
    | none => rfl
    | some x =>
      exfalso
      obtain ⟨fmt, hfmem, hfx⟩ := findSome?_some hfmts
      rw [hnone fmt hfmem] at hfx
      simp at hfx

/-- Witness for C10 at a receipt whose only date is "Jan 15, 2024". -/
theorem claim_C10_witness :
    ({ merchant_name := some "Jan 15, 2024", amount := none, tax_amount := none,
       tip_amount := none, transaction_date := none, line_items := none } :
        ExtractedReceipt).transaction_date = none :=
  claim_C10 "Jan 15, 2024" _ (by decide) (by decide) (by decide) (by decide)

/-- C5 counterexample: on "payment of $5.00 and 45.00" the code returns 5.00
(the maximum within the first matching pattern, the dollar-sign pattern), while
the claimed maximum across the whole pattern list is 45.00. -/
theorem claim_C5_counterexample :
    (parse_receipt_sms "payment of $5.00 and 45.00" "+15551234567" ⟨2024, 1, 1⟩).map
      (fun r => r.amount) = some (some ⟨500, 2⟩) ∧
    claimC5MaxAcross "payment of $5.00 and 45.00" = some ⟨4500, 2⟩ ∧
    Dec.toQ ⟨500, 2⟩ < Dec.toQ ⟨4500, 2⟩ := by
  refine ⟨by decide, by decide, ?_⟩
  norm_num [Dec.toQ]

/-- C5 (amended): the reported amount is the maximum among the matches of the
FIRST pattern, in the fixed order, that matches at all — not the maximum across
every pattern's matches. -/
theorem claim_C5 : ∀ body sender now r, parse_receipt_sms body sender now = some r →
    r.amount = amendedC5Max body := by
  intro body sender now r h
  rw [(sms_fields h).2.1]
  exact smsPickMax_eq smsAmountPats_decGrp

/-- Witness for the amended C5. -/
theorem claim_C5_witness :
    ({ merchant_name := none, amount := some ⟨500, 2⟩, transaction_date := ⟨2024, 1, 1⟩,
       card_last_four := none, sms_body := "payment of $5.00 and 45.00",
       sms_sender := "+15551234567" } : ExtractedSms).amount =
      amendedC5Max "payment of $5.00 and 45.00" :=
  claim_C5 "payment of $5.00 and 45.00" "+15551234567" ⟨2024, 1, 1⟩ _ (by decide)

/-- C6 counterexample: on the spec's example SMS the merchant is "You were"
(captured by the X-charged template after the apostrophe in "Joe's" makes the
at-X template fail), which does not contain "Joe". -/
theorem claim_C6_counterexample :
    (parse_receipt_sms "You were charged $45.00 at Joe's Diner on 01/15/2024" "+15551234567"
      ⟨2025, 6, 1⟩).map (fun r => r.merchant_name) = some (some "You were") ∧
    strIn "Joe" "You were" = false := by
  exact ⟨by decide, by decide⟩

theorem smsDate_parsed {body : String} {now : PyDate} {ds : List Char} {d : PyDate}
    (h1 : (smsDatePats.findSome? fun p => (search p body).map MRes.g1) = some ds)
    (h2 : smsDateFmts.findSome? (fun f => strptime f (String.mk ds)) = some d) :
    smsDate body now = d := by
  unfold smsDate
  simp only [h1, h2]

/-- C6 (amended): the example SMS yields merchant_name "You were" (the first
template producing a capture longer than 2 and not purely numeric is the
X-charged template, because the apostrophe blocks the at-X capture), amount
45.00, and the parsed date January 15, 2024, whatever the current time is. -/
theorem claim_C6 :
    (∀ now, (parse_receipt_sms "You were charged $45.00 at Joe's Diner on 01/15/2024"
        "+15551234567" now).map
        (fun r => (r.merchant_name, r.amount, r.transaction_date)) =
      some (some "You were", some ⟨4500, 2⟩, ⟨2024, 1, 15⟩)) ∧
    Dec.toQ ⟨4500, 2⟩ = 45 := by
  constructor
  · intro now
    have hsd : smsDate "You were charged $45.00 at Joe's Diner on 01/15/2024" now =
        ⟨2024, 1, 15⟩ :=
      @smsDate_parsed "You were charged $45.00 at Joe's Diner on 01/15/2024" now
        "01/15/2024".data ⟨2024, 1, 15⟩ (by decide) (by decide)
    unfold parse_receipt_sms
    rw [if_neg (by decide), if_neg (by decide), hsd]
    decide
  · norm_num [Dec.toQ]

/-- C7 counterexample: a first line of four dots is composed solely of
punctuation, yet the code selects it as the merchant, while the claim's
condition would skip it in favour of "STARBUCKS". -/
theorem claim_C7_counterexample :
    (extract_receipt_data "....\nSTARBUCKS").map (fun r => r.merchant_name) =
      some (some "....") ∧
    claimC7Merchant "....\nSTARBUCKS" = some "STARBUCKS" ∧
    ("...." : String) ≠ "STARBUCKS" := by
  exact ⟨by decide, by decide, by decide⟩

/-- C7 (amended): the merchant is the first of the first 5 lines whose trimmed
length exceeds 3 and which is not composed solely of digits, whitespace,
hyphens and parentheses (the class of the source regex); if no line qualifies
the field is omitted. -/
theorem claim_C7 : ∀ text r, extract_receipt_data text = some r →
    r.merchant_name = amendedC7Merchant text := by
  intro text r h
  rw [(extract_fields h).1, ocrMerchant_eq_amended]

/-- Witness for the amended C7. -/
theorem claim_C7_witness :
    ({ merchant_name := some "....", amount := none, tax_amount := none, tip_amount := none,
       transaction_date := none, line_items := none } : ExtractedReceipt).merchant_name =
      amendedC7Merchant "....\nSTARBUCKS" :=
  claim_C7 "....\nSTARBUCKS" _ (by decide)

/-- C2: categorization consults persisted active rules first, in stored order,
first substring match winning with no scoring; only if none matches is the
fixed built-in table consulted in its declared order, the matching built-in
category being materialized via `get_or_create_category`. In particular a user
rule keyed "bistro" → "Fine Dining" placed ahead of built-ins wins for any
merchant containing "bistro". -/
theorem claim_C2 :
    (∀ m db, m ≠ "" → auto_categorize_receipt (some m) db =
      (match claimRuleMatch m db with
       | some c => (some c, db)
       | none =>
         match builtinHit (lowerStr m) with
         | some n => ((get_or_create_category n db).1, (get_or_create_category n db).2)
         | none => (none, db))) ∧
    (∀ m extra, strIn "bistro" (lowerStr m) = true →
      auto_categorize_receipt (some m) (fineDiningCat :: extra) =
        (some fineDiningCat, fineDiningCat :: extra)) := by
  constructor
  · intro m db hm
    have hbeq : (m == "") = false := by
      cases hb : m == ""
      · rfl
      · exact absurd (eq_of_beq hb) hm
    simp only [auto_categorize_receipt]
    rw [if_neg (by simp [hbeq])]
    rw [ruleMatch_eq_claim]
    rfl
  · intro m extra h
    have hm : m ≠ "" := by
      intro he
      rw [he] at h
      exact absurd h (by decide)
    have hbeq : (m == "") = false := by
      cases hb : m == ""
      · rfl
      · exact absurd (eq_of_beq hb) hm
    have hhit : catKeywordHit (lowerStr m) fineDiningCat = true := by
      show (!(["bistro"] : List String).isEmpty &&
        (["bistro"] : List String).any fun k => strIn (lowerStr k) (lowerStr m)) = true
      simp only [List.isEmpty_cons, Bool.not_false, List.any_cons, List.any_nil,
        Bool.or_false, Bool.true_and]
      rw [show lowerStr "bistro" = "bistro" from rfl]
      exact h
    have hrule : ruleMatch (lowerStr m) (fineDiningCat :: extra) = some fineDiningCat := by
      unfold ruleMatch activeKeywordCats
      rw [List.filter_cons]
      rw [show (fineDiningCat.is_active && fineDiningCat.keywords.isSome) = true from rfl]
      simp only [if_true]
      rw [List.find?_cons]
      rw [hhit]
    simp only [auto_categorize_receipt]
    rw [if_neg (by simp [hbeq]), hrule]

/-- Witness for C2 at merchant "Corner Bistro". -/
theorem claim_C2_witness :
    (auto_categorize_receipt (some "Corner Bistro") [] =
      (match claimRuleMatch "Corner Bistro" [] with
       | some c => (some c, ([] : List Category))
       | none =>
         match builtinHit (lowerStr "Corner Bistro") with
         | some n => ((get_or_create_category n []).1, (get_or_create_category n []).2)
         | none => (none, []))) ∧
    auto_categorize_receipt (some "Corner Bistro") [fineDiningCat] =
      (some fineDiningCat, [fineDiningCat]) :=
  ⟨claim_C2.1 "Corner Bistro" [] (by decide),
   claim_C2.2 "Corner Bistro" [] (by decide)⟩

/-- C3: category materialization is idempotent. Categorizing twice from an
empty store returns the same result and leaves the store unchanged the second
time; in particular "Shell Gas Station #123" materializes a single "Gas"
category via the built-in fallback and a repeat call reuses it. -/
theorem claim_C3 :
    (∀ m, auto_categorize_receipt (some m) (auto_categorize_receipt (some m) []).2 =
       auto_categorize_receipt (some m) []) ∧
    auto_categorize_receipt (some "Shell Gas Station #123") [] = (some gasCat, [gasCat]) ∧
    auto_categorize_receipt (some "Shell Gas Station #123") [gasCat] = (some gasCat, [gasCat]) := by
  refine ⟨?_, by decide, by decide⟩
  intro m
  by_cases hm : (m == "") = true
  · have h1 : auto_categorize_receipt (some m) [] = (none, []) := by
      simp only [auto_categorize_receipt]
      rw [if_pos hm]
    rw [h1]
    exact h1
  · have hrule0 : ruleMatch (lowerStr m) [] = none := rfl
    cases hb : builtinHit (lowerStr m) with
    | none =>
      have h1 : auto_categorize_receipt (some m) [] = (none, []) := by
        simp only [auto_categorize_receipt]
        rw [if_neg hm, hrule0, hb]
      rw [h1]
      exact h1
    | some n =>
      have h1 : auto_categorize_receipt (some m) [] =
          (some ⟨titleStr n, none, true, true, 0⟩, [⟨titleStr n, none, true, true, 0⟩]) := by
        simp only [auto_categorize_receipt]
        rw [if_neg hm, hrule0, hb]
        rfl
      rw [h1]
      have hcond : (lowerStr (titleStr n) == lowerStr n) = true := by
        rw [builtin_lower_title hb]
        exact beq_self_eq_true _
      have hgoc : get_or_create_category n [⟨titleStr n, none, true, true, 0⟩] =
          (⟨titleStr n, none, true, true, 0⟩, [⟨titleStr n, none, true, true, 0⟩]) := by
        unfold get_or_create_category
        simp only [List.find?_cons, hcond, if_true]
      have hrule1 : ruleMatch (lowerStr m) [⟨titleStr n, none, true, true, 0⟩] = none := rfl
      simp only [auto_categorize_receipt]
      rw [if_neg hm, hrule1]
      simp only [hb]
      rw [hgoc]

/-- C9: the description-only phrase fallback (atm/withdrawal/cash → cash,
transfer/deposit → transfer, fee/charge/service → fees, else none) is applied
on the description path, while on the merchant-name path the store is never
modified and a returned category is always one of the persisted rules. -/
theorem claim_C9 :
    (∀ d db, d ≠ "" → auto_categorize_transaction none (some d) db = claimDescFallback d db) ∧
    (∀ m db, (auto_categorize_transaction (some m) none db).2 = db) ∧
    (∀ m db c, (auto_categorize_transaction (some m) none db).1 = some c → c ∈ db) := by
  refine ⟨?_, ?_, ?_⟩
  · intro d db hd
    have hbeq : (d == "") = false := by
      cases hb : d == ""
      · rfl
      · exact absurd (eq_of_beq hb) hd
    unfold auto_categorize_transaction
    simp only [actRuleStep, actDescStep]
    rw [if_neg (by simp [hbeq])]
    rfl
  · intro m db
    unfold auto_categorize_transaction
    cases hr : actRuleStep (some m) db with
    | some c => rfl
    | none => rfl
  · intro m db c
    unfold auto_categorize_transaction
    cases hr : actRuleStep (some m) db with
    | some c2 =>
      intro h
      have h2 : some c2 = some c := h
      have hc2 : c2 = c := Option.some.inj h2
      simp only [actRuleStep] at hr
      by_cases hme : (m == "") = true
      · rw [if_pos hme] at hr
        exact absurd hr (by simp)
      · rw [if_neg hme] at hr
        rw [← hc2]
        exact ruleMatch_mem hr
    | none =>
      intro h
      have h2 : (none : Option Category) = some c := h
      exact absurd h2 (by simp)

/-- Witness for C9 at an ATM-withdrawal description and a merchant-only
transaction. -/
theorem claim_C9_witness :
    auto_categorize_transaction none (some "ATM withdrawal downtown") [] =
      claimDescFallback "ATM withdrawal downtown" [] ∧
    (auto_categorize_transaction (some "Some Shop") none [fineDiningCat]).2 = [fineDiningCat] :=
  ⟨claim_C9.1 "ATM withdrawal downtown" [] (by decide),
   claim_C9.2.1 "Some Shop" [fineDiningCat]⟩
